import Mathlib

/-!
# Warp-level collision detection (collision-sycl/main.cpp)

A shallow embedding of the sub-group primitives, the unrolled bitonic sorting
network, the collision predicate and the collision mask builder, followed by
the theorems that settle the specification's claims about them.

A sub-group of `WARP_SIZE = 32` work-items is modelled as a function
`Fin 32 → T`: the value every lane holds at one program point.  A collective
operation maps such a function to the function of the values every lane holds
afterwards.
-/

namespace Collision

/-! ## Data model -/

/-- The sub-group width, `#define WARP_SIZE 32`. -/
abbrev WARP_SIZE : Nat := 32

/-- One value of type `T` per lane of the sub-group. -/
abbrev Warp (T : Type) : Type := Fin WARP_SIZE → T

/-- The `Pair<K, V>` struct of the source. -/
structure Pair (K V : Type) where
  k : K
  v : V
deriving DecidableEq

/-- Source `Pair::operator==`: `(k == rhs.k) && (v == rhs.v)`. -/
def Pair.eq {K V : Type} [DecidableEq K] [DecidableEq V] (a rhs : Pair K V) : Bool :=
  (a.k == rhs.k) && (a.v == rhs.v)

/-- Source `Pair::operator!=`: `!operator==(rhs)`. -/
def Pair.ne {K V : Type} [DecidableEq K] [DecidableEq V] (a rhs : Pair K V) : Bool :=
  !Pair.eq a rhs

/-- Source `Pair::operator<`: `(k < rhs.k) || ((k == rhs.k) && (v < rhs.v))`. -/
def Pair.lt {K V : Type} [LT K] [DecidableRel (fun a b : K => a < b)] [DecidableEq K]
    [LT V] [DecidableRel (fun a b : V => a < b)] (a rhs : Pair K V) : Bool :=
  decide (a.k < rhs.k) || ((a.k == rhs.k) && decide (a.v < rhs.v))

/-- Source `Pair::operator>`: `(k > rhs.k) || ((k == rhs.k) && (v > rhs.v))`. -/
def Pair.gt {K V : Type} [LT K] [DecidableRel (fun a b : K => a < b)] [DecidableEq K]
    [LT V] [DecidableRel (fun a b : V => a < b)] (a rhs : Pair K V) : Bool :=
  decide (a.k > rhs.k) || ((a.k == rhs.k) && decide (a.v > rhs.v))

/-- The expression `a < b` on pairs means the source's `operator<`. -/
instance Pair.instLT {K V : Type} [LT K] [DecidableRel (fun a b : K => a < b)] [DecidableEq K]
    [LT V] [DecidableRel (fun a b : V => a < b)] : LT (Pair K V) :=
  ⟨fun a b => Pair.lt a b = true⟩

instance Pair.instDecidableLT {K V : Type} [LT K] [DecidableRel (fun a b : K => a < b)]
    [DecidableEq K] [LT V] [DecidableRel (fun a b : V => a < b)] :
    DecidableRel (fun a b : Pair K V => a < b) :=
  fun a b => inferInstanceAs (Decidable (Pair.lt a b = true))

/-! ## Lane primitives -/

/-- Source `getBit`: `(val >> pos) & 0x1`. -/
def getBit (val pos : Nat) : Nat := (val >>> pos) &&& 0x1

/-- Source `getLaneId`: `item.get_local_id(0) % WARP_SIZE`; the work-group is
one sub-group of 32 work-items, so the local id ranges over `Fin 32`. -/
def getLaneId (item : Fin WARP_SIZE) : Nat := item.val % WARP_SIZE

/-- Source `GreaterThan<T>::compare`: `lhs > rhs`. -/
def GreaterThan.compare {T : Type} [LT T] [DecidableRel (fun a b : T => a < b)]
    (lhs rhs : T) : Bool := decide (lhs > rhs)

/-- Source `LessThan<T>::compare`: `lhs < rhs`. -/
def LessThan.compare {T : Type} [LT T] [DecidableRel (fun a b : T => a < b)]
    (lhs rhs : T) : Bool := decide (lhs < rhs)

/-- The lane `i XOR laneMask`; both operands are below 32, hence so is the result. -/
def xorLane (i laneMask : Fin WARP_SIZE) : Fin WARP_SIZE :=
  ⟨i.val ^^^ laneMask.val, @Nat.xor_lt_two_pow i.val laneMask.val 5 i.isLt laneMask.isLt⟩

/-- SYCL `permute_group_by_xor(sg, x, mask)`: every lane receives the value of
`x` held by the lane whose id is its own id XOR `mask`. -/
def permute_group_by_xor {T : Type} (x : Warp T) (mask : Fin WARP_SIZE) : Warp T :=
  fun i => x (xorLane i mask)

/-- Source `shfl_xor` (scalar overload): `permute_group_by_xor(sg, val, laneMask)`. -/
def shfl_xor {T : Type} (val : Warp T) (laneMask : Fin WARP_SIZE) : Warp T :=
  permute_group_by_xor val laneMask

/-- Source `shfl_xor` (the `Pair` overload): the two components are exchanged
separately and put together again. -/
def shfl_xor_pair {K V : Type} (p : Warp (Pair K V)) (laneMask : Fin WARP_SIZE) :
    Warp (Pair K V) :=
  fun i => Pair.mk (permute_group_by_xor (fun l => (p l).k) laneMask i)
    (permute_group_by_xor (fun l => (p l).v) laneMask i)

/-- Source `shflSwap`: `T y = shfl_xor(x, mask); return compare(x, y) == dir ? y : x;`.
The comparison result (a `bool`) is promoted to an integer for `== dir`.
`dir` is the per-lane direction argument. -/
def shflSwap {T : Type} (compare : T → T → Bool) (x : Warp T) (mask : Fin WARP_SIZE)
    (dir : Warp Nat) : Warp T :=
  let y := shfl_xor x mask
  fun i => if (compare (x i) (y i)).toNat = dir i then y i else x i

/-- SYCL `shift_group_right(sg, x, delta)`: lane `i` receives the value of `x`
held by lane `i - delta`.  For the lanes `i < delta` SYCL leaves the result
unspecified (the source comments expect the lane's own value); the embedding
takes what those lanes receive as the argument `unspecified`. -/
def shift_group_right {T : Type} (x : Warp T) (delta : Nat) (unspecified : Warp T) : Warp T :=
  fun i => if delta ≤ i.val then x ⟨i.val - delta, lt_of_le_of_lt (Nat.sub_le _ _) i.isLt⟩
    else unspecified i

/-- SYCL `any_of_group(sg, pred)`: true when the predicate is true at some lane. -/
def any_of_group (pred : Warp Bool) : Bool := (List.finRange WARP_SIZE).any pred

/-- SYCL `reduce_over_group(sg, x, sycl::plus<>())` on 32-bit integers, read as
the `unsigned int` the caller returns: the sum of the lanes' contributions
modulo `2 ^ 32`.  (Lane 31's contribution `0x1 << 31` is the `int` `-2 ^ 31`,
which is `2 ^ 31` modulo `2 ^ 32`.) -/
def reduce_over_group_plus (x : Warp Nat) : Nat :=
  ((List.finRange WARP_SIZE).map x).sum % 2 ^ 32

/-! ## The sorting network and the two collision functions -/

/-- Source `warpBitonicSort<T, Comparator>`: the 15 compare-exchange steps,
in the source's order and with the source's masks and direction bits. -/
def warpBitonicSort {T : Type} (compare : T → T → Bool) (val : Warp T) : Warp T :=
  let laneId : Warp Nat := getLaneId
  -- 2
  let val := shflSwap compare val 0x01 (fun i => getBit (laneId i) 1 ^^^ getBit (laneId i) 0)
  -- 4
  let val := shflSwap compare val 0x02 (fun i => getBit (laneId i) 2 ^^^ getBit (laneId i) 1)
  let val := shflSwap compare val 0x01 (fun i => getBit (laneId i) 2 ^^^ getBit (laneId i) 0)
  -- 8
  let val := shflSwap compare val 0x04 (fun i => getBit (laneId i) 3 ^^^ getBit (laneId i) 2)
  let val := shflSwap compare val 0x02 (fun i => getBit (laneId i) 3 ^^^ getBit (laneId i) 1)
  let val := shflSwap compare val 0x01 (fun i => getBit (laneId i) 3 ^^^ getBit (laneId i) 0)
  -- 16
  let val := shflSwap compare val 0x08 (fun i => getBit (laneId i) 4 ^^^ getBit (laneId i) 3)
  let val := shflSwap compare val 0x04 (fun i => getBit (laneId i) 4 ^^^ getBit (laneId i) 2)
  let val := shflSwap compare val 0x02 (fun i => getBit (laneId i) 4 ^^^ getBit (laneId i) 1)
  let val := shflSwap compare val 0x01 (fun i => getBit (laneId i) 4 ^^^ getBit (laneId i) 0)
  -- 32
  let val := shflSwap compare val 0x10 (fun i => getBit (laneId i) 4)
  let val := shflSwap compare val 0x08 (fun i => getBit (laneId i) 3)
  let val := shflSwap compare val 0x04 (fun i => getBit (laneId i) 2)
  let val := shflSwap compare val 0x02 (fun i => getBit (laneId i) 1)
  let val := shflSwap compare val 0x01 (fun i => getBit (laneId i) 0)
  val

/-- Source `warpHasCollision<T>`: sort ascending, read the lower neighbour,
flag `lower == val` at every lane but lane 0, and take the group-wide "any".
The result is the boolean every lane returns. -/
def warpHasCollision {T : Type} [LT T] [DecidableRel (fun a b : T => a < b)] [DecidableEq T]
    (val : Warp T) (unspecified : Warp T) : Warp Bool :=
  let val := warpBitonicSort LessThan.compare val
  let lower := shift_group_right val 1 unspecified
  let dup : Warp Bool := fun i => (lower i == val i) && (getLaneId i != 0)
  fun _ => any_of_group dup != false

/-- Source `warpCollisionMask<T>`: sort the `(value, lane)` pairs, flag the
lanes whose lower neighbour holds an equal value, sort the `(origin lane, flag)`
pairs back, and add up `1 << lane` over the flagged lanes.  The result is the
`unsigned int` every lane returns. -/
def warpCollisionMask {T : Type} [LT T] [DecidableRel (fun a b : T => a < b)] [DecidableEq T]
    (val : Warp T) (unspecified : Warp T) : Warp Nat :=
  let pVal : Warp (Pair T Nat) := fun i => Pair.mk (val i) (getLaneId i)
  let pVal := warpBitonicSort LessThan.compare pVal
  let lower := shift_group_right (fun i => (pVal i).k) 1 unspecified
  let dup : Warp (Pair Nat Bool) :=
    fun i => Pair.mk (pVal i).v ((lower i == (pVal i).k) && (getLaneId i != 0))
  let dup := warpBitonicSort LessThan.compare dup
  fun _ => reduce_over_group_plus (fun i => if (dup i).v then 0x1 <<< i.val else 0)

/-! ## Inputs and measures the claims are stated with -/

/-- An input of the shape `test_collision` and `test_collisionMask` build for
`ND = 32`: `32 - numDups` pairwise distinct values followed by `numDups` copies
of the first one.  The source draws the distinct values from `rand()`; here
lane `i` of the distinct part holds `7 * i + 3`. -/
def testInput (numDups : Nat) : Warp Int :=
  fun i => if i.val < 32 - numDups then 7 * (i.val : Int) + 3 else 3

/-- An input in which two lanes that are not neighbours collide: lanes 0 and 5
both hold 0, every other lane `i` holds `i`. -/
def farPairInput : Warp Int :=
  fun i => if i.val = 5 then 0 else (i.val : Int)

/-- The value `test_collisionMask` expects:
`numDups > 0 ? 0xffffffffU << (ND - numDups) : 0`, in 32-bit arithmetic. -/
def expectedMask (numDups : Nat) : Nat :=
  if numDups > 0 then (0xffffffff <<< (32 - numDups)) % 2 ^ 32 else 0

/-- The number of bits set among the 32 bits of a mask. -/
def popcount (mask : Nat) : Nat :=
  (Finset.univ.filter (fun b : Fin WARP_SIZE => mask.testBit b.val = true)).card

/-- The number of lanes whose value is also held by another lane. -/
def numberOfDuplicatedValues {T : Type} [DecidableEq T] (val : Warp T) : Nat :=
  (Finset.univ.filter (fun j : Fin WARP_SIZE => ∃ i : Fin WARP_SIZE, i ≠ j ∧ val i = val j)).card

/-- An input with two unrelated colliding pairs: lanes 1 and 4 both hold 100,
lanes 2 and 9 both hold 200, every other lane `i` holds `i`. -/
def twoPairsInput : Warp Int :=
  fun i => if i.val = 1 ∨ i.val = 4 then 100 else if i.val = 2 ∨ i.val = 9 then 200
    else (i.val : Int)

/-! ## The intermediate values of `warpCollisionMask` -/

/-- The value of `pVal` after the first sort in `warpCollisionMask`: the
`(value, lane)` pairs sorted with `LessThan<Pair<T, int>>`. -/
def collisionMask_pVal {T : Type} [LT T] [DecidableRel (fun a b : T => a < b)] [DecidableEq T]
    (val : Warp T) : Warp (Pair T Nat) :=
  warpBitonicSort LessThan.compare (fun i => Pair.mk (val i) (getLaneId i))

/-- The value of `dup` before the second sort in `warpCollisionMask`: at every
lane the origin lane carried by `pVal` and the result of the neighbour test. -/
def collisionMask_dup {T : Type} [LT T] [DecidableRel (fun a b : T => a < b)] [DecidableEq T]
    (val : Warp T) (unspecified : Warp T) : Warp (Pair Nat Bool) :=
  let pVal := collisionMask_pVal val
  let lower := shift_group_right (fun i => (pVal i).k) 1 unspecified
  fun i => Pair.mk (pVal i).v ((lower i == (pVal i).k) && (getLaneId i != 0))

/-- The value of `dup` after the second sort in `warpCollisionMask`. -/
def collisionMask_dupSorted {T : Type} [LT T] [DecidableRel (fun a b : T => a < b)]
    [DecidableEq T] (val : Warp T) (unspecified : Warp T) : Warp (Pair Nat Bool) :=
  warpBitonicSort LessThan.compare (collisionMask_dup val unspecified)

/-! ## The generic bitonic network the unrolled one is compared with -/

/-- Stage `s` of the generic network: for `j = s - 1` down to `0`, one
compare-exchange with mask `2 ^ j` and direction bit
`getBit(lane, s) ^ getBit(lane, j)`. -/
def genericStage {T : Type} (compare : T → T → Bool) (s : Nat) (val : Warp T) : Warp T :=
  (List.range s).reverse.foldl
    (fun v j => shflSwap compare v (Fin.ofNat (2 ^ j))
      (fun i => getBit (getLaneId i) s ^^^ getBit (getLaneId i) j)) val

/-- The generic bitonic network on 32 lanes: stages `s = 1, 2, 3, 4, 5`, which
sort aligned blocks of 2, 4, 8, 16 and 32 lanes. -/
def genericBitonicSort {T : Type} (compare : T → T → Bool) (val : Warp T) : Warp T :=
  [1, 2, 3, 4, 5].foldl (fun v s => genericStage compare s v) val

/-- An input whose equal values sit in adjacent lanes: lanes 0..3 all hold 0,
every other lane `i` holds `i`. -/
def adjacentInput : Warp Int :=
  fun i => if i.val < 4 then 0 else (i.val : Int)

/-- The expression `(mask | (mask >> 1))` of the doc comment of
`warpCollisionMask`. -/
def maskOrShift (mask : Nat) : Nat := mask ||| (mask >>> 1)

/-- The bitwise-OR reduction of the lanes' contributions, the fold the
specification describes for the mask. -/
def reduce_over_group_or (x : Warp Nat) : Nat :=
  ((List.finRange WARP_SIZE).map x).foldl (fun acc c => acc ||| c) 0

/-- The value of a 32-bit pattern read as a signed `int`: patterns from
`2 ^ 31` on are negative, so `0x1 << 31` is `-2 ^ 31`. -/
def asInt32 (n : Nat) : Int :=
  if n % 2 ^ 32 < 2 ^ 31 then ((n % 2 ^ 32 : Nat) : Int) else ((n % 2 ^ 32 : Nat) : Int) - 2 ^ 32

/-! ## Auxiliary definitions used by the proofs

The network is also described as a list of steps, each with its exchange mask
and direction bits, so that facts about all 15 steps are proved once.  On
boolean lane values a step is additionally given as a computation on the 32-bit
word whose bit `i` is lane `i`'s value; the proofs run the network on such
words. -/

/-- A comparator that is a strict total order: what `<` and `>` are on a
totally ordered type, and what `Pair::operator<` is on pairs of such types. -/
structure StrictTotal {T : Type} (cmp : T → T → Bool) : Prop where
  irrefl : ∀ a, cmp a a = false
  trans : ∀ a b c, cmp a b = true → cmp b c = true → cmp a c = true
  total : ∀ a b, cmp a b = true ∨ a = b ∨ cmp b a = true

/-- One compare-exchange step: the exchange mask and the per-lane direction
bit, together with two words describing them: bit `i` of `lo` is set when lane
`i` has the mask bit clear, bit `i` of `dirBits` is set when `dir i = 1`. -/
structure Step where
  mask : Fin WARP_SIZE
  dir : Warp Nat
  lo : Nat
  dirBits : Nat

/-- The direction bit `getBit(laneId, a) ^ getBit(laneId, b)`. -/
def dir2 (a b : Nat) : Warp Nat := fun i => getBit (getLaneId i) a ^^^ getBit (getLaneId i) b

/-- The direction bit `getBit(laneId, a)`. -/
def dir1 (a : Nat) : Warp Nat := fun i => getBit (getLaneId i) a

/-- The steps of the group the source comments `// 2`, `// 4`, `// 8`, `// 16`
and `// 32`, as stage 1 to 5. -/
def stageSteps : Nat → List Step
  | 1 => [⟨0x01, dir2 1 0, 0x55555555, 0x66666666⟩]
  | 2 => [⟨0x02, dir2 2 1, 0x33333333, 0x3C3C3C3C⟩, ⟨0x01, dir2 2 0, 0x55555555, 0x5A5A5A5A⟩]
  | 3 => [⟨0x04, dir2 3 2, 0x0F0F0F0F, 0x0FF00FF0⟩, ⟨0x02, dir2 3 1, 0x33333333, 0x33CC33CC⟩,
          ⟨0x01, dir2 3 0, 0x55555555, 0x55AA55AA⟩]
  | 4 => [⟨0x08, dir2 4 3, 0x00FF00FF, 0x00FFFF00⟩, ⟨0x04, dir2 4 2, 0x0F0F0F0F, 0x0F0FF0F0⟩,
          ⟨0x02, dir2 4 1, 0x33333333, 0x3333CCCC⟩, ⟨0x01, dir2 4 0, 0x55555555, 0x5555AAAA⟩]
  | 5 => [⟨0x10, dir1 4, 0x0000FFFF, 0xFFFF0000⟩, ⟨0x08, dir1 3, 0x00FF00FF, 0xFF00FF00⟩,
          ⟨0x04, dir1 2, 0x0F0F0F0F, 0xF0F0F0F0⟩, ⟨0x02, dir1 1, 0x33333333, 0xCCCCCCCC⟩,
          ⟨0x01, dir1 0, 0x55555555, 0xAAAAAAAA⟩]
  | _ => []

/-- Run a list of steps, first to last, with `shflSwap`. -/
def runSteps {T : Type} (compare : T → T → Bool) (steps : List Step) (val : Warp T) : Warp T :=
  steps.foldl (fun v st => shflSwap compare v st.mask st.dir) val

/-- All 15 steps of the network, in the source's order. -/
def networkSteps : List Step :=
  stageSteps 1 ++ stageSteps 2 ++ stageSteps 3 ++ stageSteps 4 ++ stageSteps 5

/-- The boolean lane values stored in a word: lane `i` holds bit `i`. -/
def unpack (w : Nat) : Warp Bool := fun i => w.testBit i.val

/-- One `shflSwap` step with `LessThan` on boolean lanes, on the packed word:
`y` is the word of the partners' values, a lane with direction bit 0 ends
with `x && y` and a lane with direction bit 1 with `x || y`. -/
def shflSwapBits (laneMask lo dirBits w : Nat) : Nat :=
  let y := ((w >>> laneMask) &&& lo) ||| ((w <<< laneMask) &&& (lo <<< laneMask))
  (w &&& y) ||| ((w ||| y) &&& dirBits)

/-- Run a list of steps on a packed word. -/
def runStepsBits (steps : List Step) (w : Nat) : Nat :=
  steps.foldl (fun v st => shflSwapBits st.mask.val st.lo st.dirBits v) w

/-- Bit `i` is set when lane `i` starts an aligned block of `2 ^ s` lanes whose
block number is even. -/
def evenBase : Nat → Nat
  | 0 => 0x55555555
  | 1 => 0x11111111
  | 2 => 0x01010101
  | 3 => 0x00010001
  | _ => 0x00000001

/-- Bit `i` is set when lane `i` starts an aligned block of `2 ^ s` lanes whose
block number is odd. -/
def oddBase : Nat → Nat
  | 0 => 0xAAAAAAAA
  | 1 => 0x44444444
  | 2 => 0x10101010
  | 3 => 0x01000100
  | 4 => 0x00010000
  | _ => 0x00000000

/-- The word in which every even block of `2 ^ s` lanes is ascending with `c1`
ones (at its top) and every odd block is descending with `c2` ones (at its
bottom). -/
def blocks (s c1 c2 : Nat) : Nat :=
  (2 ^ 2 ^ s - 2 ^ (2 ^ s - c1)) * evenBase s + (2 ^ c2 - 1) * oddBase s

/-- The boolean lanes are sorted inside every aligned block of `2 ^ s` lanes,
ascending in even blocks and descending in odd blocks. -/
def BlocksSorted (s : Nat) (b : Warp Bool) : Prop :=
  ∀ i : Fin WARP_SIZE, ∃ c, c ≤ 2 ^ s ∧
    ∀ j : Fin WARP_SIZE, j.val / 2 ^ s = i.val / 2 ^ s → b j = (blocks s c c).testBit j.val

/-- What a step's words and direction bits must satisfy, at every lane: the
direction bit is bit `i` of `dirBits`, the two lanes of a pair have opposite
direction bits, and the partner is `i + mask` where `lo` has its bit set and
`i - mask` where `lo <<< mask` has. -/
def Step.Valid (st : Step) : Prop :=
  ∀ i : Fin WARP_SIZE,
    st.dir i = (st.dirBits.testBit i.val).toNat ∧
    st.dir (xorLane i st.mask) + st.dir i = 1 ∧
    ((st.lo.testBit i.val = true ∧ (xorLane i st.mask).val = i.val + st.mask.val ∧
        (st.lo <<< st.mask.val).testBit i.val = false) ∨
     (st.lo.testBit i.val = false ∧ st.mask.val ≤ i.val ∧
        (st.lo <<< st.mask.val).testBit i.val = true ∧
        (xorLane i st.mask).val = i.val - st.mask.val))

instance (st : Step) : Decidable st.Valid := by unfold Step.Valid; infer_instance

end Collision

/-!
# The store schedule of the second-order-section filter (sosfil-sycl/main.cpp)

The kernel's floating-point values are left out; what is embedded is which
element of `s_out` and of `x_in` each work-item stores to, in program order,
through the loading, processing and unloading phases.
-/

namespace Sosfil

/-- Source `#define MAX_THREADS 256`. -/
def MAX_THREADS : Int := 256

/-- Source `#define THREADS 32`: the local range, work-items per signal. -/
def THREADS : Int := 32

/-- The values `n` takes in `for (int n = lo; n < hi; n++)`, in order. -/
def forRange (lo hi : Int) : List Int :=
  (List.range (hi - lo).toNat).map (fun k : Nat => lo + (k : Int))

/-- A store of the kernel to shared `s_out[idx]` or to the global `x_in[idx]`,
with the stored value left out. -/
inductive Store where
  | s_out (idx : Int)
  | x_in (idx : Int)
deriving DecidableEq

/-- The stores of work-item `(ty, tx)` in the loading phase:
`s_out[tx] = temp` in every iteration `n = 0 .. load_size - 1`. -/
def loadingPhase (n_sections tx : Int) : List Store :=
  let load_size := n_sections - 1
  (forRange 0 load_size).map (fun _ => Store.s_out tx)

/-- The stores of work-item `(ty, tx)` in the processing phase: for
`n = load_size .. n_samples - 1`, `s_out[tx] = temp` if `tx < load_size`, else
`x_in[ty * n_samples + (n - load_size)] = temp`. -/
def processingPhase (n_samples n_sections ty tx : Int) : List Store :=
  let load_size := n_sections - 1
  (forRange load_size n_samples).map (fun n =>
    if tx < load_size then Store.s_out tx
    else Store.x_in (ty * n_samples + (n - load_size)))

/-- The stores of work-item `(ty, tx)` in the unloading phase: for
`n = 0 .. n_sections - 1`, only if `tx > n`: `s_out[tx] = temp` if
`tx < load_size`, else `x_in[ty * n_samples + (n + unload_size)] = temp`. -/
def unloadingPhase (n_samples n_sections ty tx : Int) : List Store :=
  let load_size := n_sections - 1
  let unload_size := n_samples - load_size
  (forRange 0 n_sections).flatMap (fun n =>
    if tx > n then
      [if tx < load_size then Store.s_out tx
       else Store.x_in (ty * n_samples + (n + unload_size))]
    else [])

/-- The stores to `s_out` and `x_in` of work-item `(ty, tx)` in the kernel
lambda, in program order: `s_out[tx] = 0`, then, if `ty < n_signals`, the three
phases. -/
def kernelStores (n_signals n_samples n_sections ty tx : Int) : List Store :=
  Store.s_out tx ::
    (if ty < n_signals then
      loadingPhase n_sections tx ++ processingPhase n_samples n_sections ty tx ++
        unloadingPhase n_samples n_sections ty tx
    else [])

/-- The indices of `x_in` a list of stores writes, in order. -/
def outputIndices (stores : List Store) : List Int :=
  stores.filterMap (fun st => match st with
    | Store.x_in idx => some idx
    | Store.s_out _ => none)

end Sosfil

namespace Collision

/-! ## The network as a list of steps -/

/-- The `Pair` overload of `shfl_xor` exchanges whole pairs: it is the scalar
overload at the pair type, which is what `shflSwap` is stated with. -/
theorem shfl_xor_pair_eq {K V : Type} (p : Warp (Pair K V)) (laneMask : Fin WARP_SIZE) :
    shfl_xor_pair p laneMask = shfl_xor p laneMask := rfl

theorem warpBitonicSort_eq_runSteps {T : Type} (cmp : T → T → Bool) (val : Warp T) :
    warpBitonicSort cmp val =
      runSteps cmp (stageSteps 5) (runSteps cmp (stageSteps 4) (runSteps cmp (stageSteps 3)
        (runSteps cmp (stageSteps 2) (runSteps cmp (stageSteps 1) val)))) := rfl

theorem warpBitonicSort_eq_network {T : Type} (cmp : T → T → Bool) (val : Warp T) :
    warpBitonicSort cmp val = runSteps cmp networkSteps val := rfl

set_option maxRecDepth 100000 in
theorem stageSteps_valid : ∀ s < 6, ∀ st ∈ stageSteps s, st.Valid := by
  decide!

set_option maxRecDepth 100000 in
theorem stageSteps_local : ∀ s < 6, ∀ st ∈ stageSteps s, ∀ i : Fin WARP_SIZE,
    (xorLane i st.mask).val / 2 ^ s = i.val / 2 ^ s := by
  decide!

set_option maxRecDepth 100000 in
theorem stage_bits : ∀ t < 5, ∀ c1 < 2 ^ t + 1, ∀ c2 < 2 ^ t + 1,
    runStepsBits (stageSteps (t + 1)) (blocks t c1 c2) = blocks (t + 1) (c1 + c2) (c1 + c2) := by
  decide!

set_option maxRecDepth 100000 in
theorem blocks_split : ∀ t < 5, ∀ c1 < 2 ^ t + 1, ∀ c2 < 2 ^ t + 1, ∀ j : Fin WARP_SIZE,
    (blocks t c1 c2).testBit j.val =
      if j.val / 2 ^ t % 2 = 0 then (blocks t c1 c1).testBit j.val
      else (blocks t c2 c2).testBit j.val := by
  decide!

set_option maxRecDepth 100000 in
theorem blocks_five : ∀ c < 33, ∀ j : Fin WARP_SIZE,
    (blocks 5 c c).testBit j.val = decide (32 ≤ j.val + c) := by
  decide!

theorem blocks_zero : ∀ j : Fin WARP_SIZE,
    (blocks 0 0 0).testBit j.val = false ∧ (blocks 0 1 1).testBit j.val = true := by
  decide!

set_option maxRecDepth 100000 in
theorem block_halves : ∀ t < 5, ∀ i j : Fin WARP_SIZE,
    j.val / 2 ^ (t + 1) = i.val / 2 ^ (t + 1) →
      (j.val / 2 ^ t = i.val / 2 ^ t ∨ j.val / 2 ^ t = (i.val ^^^ 2 ^ t) / 2 ^ t) ∧
      (i.val ^^^ 2 ^ t) < 32 ∧ (i.val ^^^ 2 ^ t) / 2 ^ t % 2 ≠ i.val / 2 ^ t % 2 := by
  decide!

/-! ## Boolean lanes as packed words -/

theorem bool_swap_eq (a b d : Bool) :
    (if (decide (a < b)).toNat = d.toNat then b else a) = ((a && b) || ((a || b) && d)) := by
  cases a <;> cases b <;> cases d <;> decide

theorem shflSwap_unpack (st : Step) (h : st.Valid) (w : Nat) :
    shflSwap LessThan.compare (unpack w) st.mask st.dir
      = unpack (shflSwapBits st.mask.val st.lo st.dirBits w) := by
  funext i
  obtain ⟨hd, -, hp⟩ := h i
  simp only [shflSwap, shfl_xor, permute_group_by_xor, unpack, shflSwapBits, LessThan.compare,
    Nat.testBit_or, Nat.testBit_and, Nat.testBit_shiftRight, hd]
  rw [Nat.testBit_shiftLeft w, bool_swap_eq]
  rcases hp with ⟨h1, h2, h3⟩ | ⟨h1, h2, h3, h4⟩
  · simp only [h2, h1, h3, Nat.add_comm st.mask.val, Bool.and_true, Bool.and_false,
      Bool.or_false]
  · simp only [h4, h1, h3, ge_iff_le, h2, decide_True, Bool.true_and, Bool.and_false,
      Bool.false_or, Bool.and_true]

theorem runSteps_unpack (steps : List Step) (h : ∀ st ∈ steps, st.Valid) (w : Nat) :
    runSteps LessThan.compare steps (unpack w) = unpack (runStepsBits steps w) := by
  induction steps generalizing w with
  | nil => rfl
  | cons st rest ih =>
    simp only [runSteps, runStepsBits, List.foldl_cons]
    rw [shflSwap_unpack st (h st (List.mem_cons_self _ _))]
    exact ih (fun s hs => h s (List.mem_cons_of_mem _ hs)) _

/-- A step whose partners stay inside the aligned blocks of `2 ^ s` lanes maps
lane values that agree on a block to lane values that agree on that block. -/
theorem shflSwap_local {T : Type} (cmp : T → T → Bool) (s : Nat) (st : Step)
    (hl : ∀ i : Fin WARP_SIZE, (xorLane i st.mask).val / 2 ^ s = i.val / 2 ^ s)
    (b b' : Warp T) (i : Fin WARP_SIZE)
    (hb : ∀ j : Fin WARP_SIZE, j.val / 2 ^ s = i.val / 2 ^ s → b j = b' j) :
    ∀ j : Fin WARP_SIZE, j.val / 2 ^ s = i.val / 2 ^ s →
      shflSwap cmp b st.mask st.dir j = shflSwap cmp b' st.mask st.dir j := by
  intro j hj
  simp only [shflSwap, shfl_xor, permute_group_by_xor]
  rw [hb j hj, hb (xorLane j st.mask) ((hl j).trans hj)]

theorem runSteps_local {T : Type} (cmp : T → T → Bool) (s : Nat) (steps : List Step)
    (hl : ∀ st ∈ steps, ∀ i : Fin WARP_SIZE, (xorLane i st.mask).val / 2 ^ s = i.val / 2 ^ s)
    (b b' : Warp T) (i : Fin WARP_SIZE)
    (hb : ∀ j : Fin WARP_SIZE, j.val / 2 ^ s = i.val / 2 ^ s → b j = b' j) :
    ∀ j : Fin WARP_SIZE, j.val / 2 ^ s = i.val / 2 ^ s →
      runSteps cmp steps b j = runSteps cmp steps b' j := by
  induction steps generalizing b b' with
  | nil => exact hb
  | cons st rest ih =>
    simp only [runSteps, List.foldl_cons]
    exact ih (fun s hs => hl s (List.mem_cons_of_mem _ hs)) _ _
      (shflSwap_local cmp s st (hl st (List.mem_cons_self _ _)) b b' i hb)

/-! ## The zero-one case, stage by stage -/

theorem blocks_of_halves (t : Nat) (ht : t < 5) (b : Warp Bool) (hb : BlocksSorted t b)
    (i : Fin WARP_SIZE) :
    ∃ c1 c2, c1 ≤ 2 ^ t ∧ c2 ≤ 2 ^ t ∧ ∀ j : Fin WARP_SIZE,
      j.val / 2 ^ (t + 1) = i.val / 2 ^ (t + 1) → b j = (blocks t c1 c2).testBit j.val := by
  have hlt : i.val ^^^ 2 ^ t < 32 := (block_halves t ht i i rfl).2.1
  obtain ⟨ca, hca, ha⟩ := hb i
  obtain ⟨cb, hcb, hb'⟩ := hb ⟨i.val ^^^ 2 ^ t, hlt⟩
  by_cases hpar : i.val / 2 ^ t % 2 = 0
  · refine ⟨ca, cb, hca, hcb, fun j hj => ?_⟩
    obtain ⟨hor, -, hne⟩ := block_halves t ht i j hj
    rw [blocks_split t ht ca (Nat.lt_succ_of_le hca) cb (Nat.lt_succ_of_le hcb) j]
    rcases hor with h | h
    · rw [if_pos (by rw [h]; exact hpar)]; exact ha j h
    · rw [if_neg (by rw [h, hpar] at *; exact hne)]; exact hb' j h
  · refine ⟨cb, ca, hcb, hca, fun j hj => ?_⟩
    obtain ⟨hor, -, hne⟩ := block_halves t ht i j hj
    rw [blocks_split t ht cb (Nat.lt_succ_of_le hcb) ca (Nat.lt_succ_of_le hca) j]
    rcases hor with h | h
    · rw [if_neg (by rw [h]; exact hpar)]; exact ha j h
    · rw [if_pos (by rw [h]; omega)]; exact hb' j h

theorem stage_blocksSorted (t : Nat) (ht : t < 5) (b : Warp Bool) (hb : BlocksSorted t b) :
    BlocksSorted (t + 1) (runSteps LessThan.compare (stageSteps (t + 1)) b) := by
  intro i
  obtain ⟨c1, c2, h1, h2, h⟩ := blocks_of_halves t ht b hb i
  refine ⟨c1 + c2, by rw [pow_succ]; omega, fun j hj => ?_⟩
  rw [runSteps_local _ (t + 1) _ (stageSteps_local (t + 1) (by omega)) b
      (unpack (blocks t c1 c2)) i h j hj,
    runSteps_unpack _ (stageSteps_valid (t + 1) (by omega)),
    stage_bits t ht c1 (Nat.lt_succ_of_le h1) c2 (Nat.lt_succ_of_le h2)]
  rfl

theorem blocksSorted_zero (b : Warp Bool) : BlocksSorted 0 b := by
  intro i
  cases hbi : b i
  · refine ⟨0, by norm_num, fun j hj => ?_⟩
    have : j = i := Fin.ext (by simpa using hj)
    rw [this, hbi, (blocks_zero i).1]
  · refine ⟨1, by norm_num, fun j hj => ?_⟩
    have : j = i := Fin.ext (by simpa using hj)
    rw [this, hbi, (blocks_zero i).2]

/-- The zero-one case: on boolean lanes the network with `LessThan` leaves
`false` lanes below `true` lanes. -/
theorem warpBitonicSort_bool_sorted (b : Warp Bool) (i j : Fin WARP_SIZE) (hij : i ≤ j)
    (hi : warpBitonicSort LessThan.compare b i = true) :
    warpBitonicSort LessThan.compare b j = true := by
  have h5 := stage_blocksSorted 4 (by norm_num) _ (stage_blocksSorted 3 (by norm_num) _
    (stage_blocksSorted 2 (by norm_num) _ (stage_blocksSorted 1 (by norm_num) _
    (stage_blocksSorted 0 (by norm_num) _ (blocksSorted_zero b)))))
  rw [warpBitonicSort_eq_runSteps] at hi ⊢
  obtain ⟨c, hc, h⟩ := h5 i
  have hdiv : ∀ k : Fin WARP_SIZE, k.val / 2 ^ (4 + 1) = i.val / 2 ^ (4 + 1) := by
    intro k
    rw [Nat.div_eq_of_lt (by exact k.isLt), Nat.div_eq_of_lt (by exact i.isLt)]
  have hc' : c < 33 := by norm_num at hc; omega
  rw [h i (hdiv i), blocks_five c hc' i] at hi
  rw [h j (hdiv j), blocks_five c hc' j]
  have hle : i.val ≤ j.val := hij
  simp only [decide_eq_true_eq] at hi ⊢
  omega

/-! ## From boolean lanes to every strict total comparator -/

theorem StrictTotal.asymm {T : Type} {cmp : T → T → Bool} (hc : StrictTotal cmp) (a b : T)
    (h : cmp a b = true) : cmp b a = false := by
  cases hba : cmp b a
  · rfl
  · have := hc.trans a b a h hba
    rw [hc.irrefl] at this
    exact absurd this (by decide)

theorem swap_map {T : Type} (cmp : T → T → Bool) (hc : StrictTotal cmp) (f : T → Bool)
    (hf : ∀ a b, cmp a b = true → f a = true → f b = true) (a b : T) (d : Nat) :
    f (if (cmp a b).toNat = d then b else a) =
      if (LessThan.compare (f a) (f b)).toNat = d then f b else f a := by
  by_cases hfab : f a = f b
  · rw [hfab]; split_ifs <;> first | rfl | exact hfab
  · rcases hc.total a b with h | h | h
    · have hfa : f a = false := by
        cases hfa : f a
        · rfl
        · exact absurd (hfa.trans (hf a b h hfa).symm) hfab
      have hfb : f b = true := by
        cases hfb : f b
        · exact absurd (hfa.trans hfb.symm) hfab
        · rfl
      rw [h, hfa, hfb]
      have : LessThan.compare false true = true := by decide
      rw [this]
      split_ifs <;> first | exact hfa | exact hfb
    · exact absurd (by rw [h]) hfab
    · have hab := hc.asymm b a h
      have hfb : f b = false := by
        cases hfb : f b
        · rfl
        · exact absurd ((hf b a h hfb).trans hfb.symm) hfab
      have hfa : f a = true := by
        cases hfa : f a
        · exact absurd (hfa.trans hfb.symm) hfab
        · rfl
      rw [hab, hfa, hfb]
      have : LessThan.compare true false = false := by decide
      rw [this]
      split_ifs <;> first | exact hfa | exact hfb

/-- A compare-exchange step commutes with every map into the booleans that is
monotone for the comparator. -/
theorem shflSwap_map {T : Type} (cmp : T → T → Bool) (hc : StrictTotal cmp) (f : T → Bool)
    (hf : ∀ a b, cmp a b = true → f a = true → f b = true)
    (x : Warp T) (mask : Fin WARP_SIZE) (dir : Warp Nat) :
    (fun i => f (shflSwap cmp x mask dir i)) =
      shflSwap LessThan.compare (fun i => f (x i)) mask dir := by
  funext i
  exact swap_map cmp hc f hf (x i) (x (xorLane i mask)) (dir i)

theorem runSteps_map {T : Type} (cmp : T → T → Bool) (hc : StrictTotal cmp) (f : T → Bool)
    (hf : ∀ a b, cmp a b = true → f a = true → f b = true) (steps : List Step) (x : Warp T) :
    (fun i => f (runSteps cmp steps x i)) =
      runSteps LessThan.compare steps (fun i => f (x i)) := by
  induction steps generalizing x with
  | nil => rfl
  | cons st rest ih =>
    simp only [runSteps, List.foldl_cons]
    have h := ih (shflSwap cmp x st.mask st.dir)
    simp only [runSteps] at h
    rw [h, shflSwap_map cmp hc f hf]

/-- Sortedness of the network's output for every strict total comparator: no
lane holds an item that the comparator puts strictly before the item of a
lower lane. -/
theorem warpBitonicSort_sorted {T : Type} (cmp : T → T → Bool) (hc : StrictTotal cmp)
    (val : Warp T) (i j : Fin WARP_SIZE) (hij : i ≤ j) :
    cmp (warpBitonicSort cmp val j) (warpBitonicSort cmp val i) = false := by
  by_contra hne
  have hlt : cmp (warpBitonicSort cmp val j) (warpBitonicSort cmp val i) = true := by
    simpa using hne
  have hf : ∀ a b, cmp a b = true → (!cmp a (warpBitonicSort cmp val i)) = true →
      (!cmp b (warpBitonicSort cmp val i)) = true := by
    intro a b hab ha
    cases hb : cmp b (warpBitonicSort cmp val i)
    · rfl
    · rw [hc.trans a b _ hab hb] at ha
      exact absurd ha (by decide)
  have hmap := runSteps_map cmp hc (fun a => !cmp a (warpBitonicSort cmp val i)) hf
    networkSteps val
  have hi := congrFun hmap i
  have hj := congrFun hmap j
  simp only [← warpBitonicSort_eq_network] at hi hj
  rw [hc.irrefl] at hi
  rw [hlt] at hj
  have := warpBitonicSort_bool_sorted _ i j hij hi.symm
  rw [← hj] at this
  exact absurd this (by decide)

/-! ## The network permutes the lanes -/

theorem xorLane_xorLane (i m : Fin WARP_SIZE) : xorLane (xorLane i m) m = i := by
  apply Fin.ext
  simp only [xorLane]
  rw [Nat.xor_assoc, Nat.xor_self, Nat.xor_zero]

theorem toNat_flip {T : Type} {cmp : T → T → Bool} (hc : StrictTotal cmp) (a b : T)
    (hab : a ≠ b) : (cmp b a).toNat + (cmp a b).toNat = 1 := by
  rcases hc.total a b with h | h | h
  · rw [h, hc.asymm a b h]; rfl
  · exact absurd h hab
  · rw [h, hc.asymm b a h]; rfl

/-- One step only moves items between lanes: its output is its input read
through a permutation of the lanes. -/
theorem shflSwap_perm {T : Type} (cmp : T → T → Bool) (hc : StrictTotal cmp) (st : Step)
    (hv : st.Valid) (x : Warp T) :
    ∃ σ : Equiv.Perm (Fin WARP_SIZE), ∀ i, shflSwap cmp x st.mask st.dir i = x (σ i) := by
  classical
  let sw : Fin WARP_SIZE → Prop := fun i =>
    x i ≠ x (xorLane i st.mask) ∧ (cmp (x i) (x (xorLane i st.mask))).toNat = st.dir i
  have hsw : ∀ i, sw i → sw (xorLane i st.mask) := by
    intro i ⟨hne, hd⟩
    refine ⟨by rw [xorLane_xorLane]; exact fun h => hne h.symm, ?_⟩
    rw [xorLane_xorLane]
    have h1 := toNat_flip hc _ _ hne
    have h2 := (hv i).2.1
    omega
  let σ : Fin WARP_SIZE → Fin WARP_SIZE := fun i => if sw i then xorLane i st.mask else i
  have hinv : Function.Involutive σ := by
    intro i
    by_cases h : sw i
    · simp only [σ, if_pos h, if_pos (hsw i h), xorLane_xorLane]
    · simp only [σ, if_neg h]
  refine ⟨hinv.toPerm σ, fun i => ?_⟩
  simp only [Function.Involutive.coe_toPerm, shflSwap, shfl_xor, permute_group_by_xor, σ]
  by_cases h : sw i
  · rw [if_pos h, if_pos h.2]
  · rw [if_neg h]
    by_cases he : x i = x (xorLane i st.mask)
    · rw [← he]; split_ifs <;> rfl
    · rw [if_neg (fun hd => h ⟨he, hd⟩)]

theorem runSteps_perm {T : Type} (cmp : T → T → Bool) (hc : StrictTotal cmp) (steps : List Step)
    (hv : ∀ st ∈ steps, st.Valid) (x : Warp T) :
    ∃ σ : Equiv.Perm (Fin WARP_SIZE), ∀ i, runSteps cmp steps x i = x (σ i) := by
  induction steps generalizing x with
  | nil => exact ⟨Equiv.refl _, fun i => rfl⟩
  | cons st rest ih =>
    obtain ⟨σ1, h1⟩ := shflSwap_perm cmp hc st (hv st (List.mem_cons_self _ _)) x
    obtain ⟨σ2, h2⟩ := ih (fun s hs => hv s (List.mem_cons_of_mem _ hs))
      (shflSwap cmp x st.mask st.dir)
    refine ⟨σ2.trans σ1, fun i => ?_⟩
    simp only [runSteps, List.foldl_cons] at h2 ⊢
    rw [h2, h1]
    rfl

theorem networkSteps_valid : ∀ st ∈ networkSteps, st.Valid := by
  intro st hst
  simp only [networkSteps, List.mem_append] at hst
  rcases hst with (((h | h) | h) | h) | h
  · exact stageSteps_valid 1 (by norm_num) st h
  · exact stageSteps_valid 2 (by norm_num) st h
  · exact stageSteps_valid 3 (by norm_num) st h
  · exact stageSteps_valid 4 (by norm_num) st h
  · exact stageSteps_valid 5 (by norm_num) st h

/-- The network's output is its input read through a permutation of the lanes,
for every strict total comparator. -/
theorem warpBitonicSort_perm {T : Type} (cmp : T → T → Bool) (hc : StrictTotal cmp)
    (val : Warp T) :
    ∃ σ : Equiv.Perm (Fin WARP_SIZE), ∀ i, warpBitonicSort cmp val i = val (σ i) :=
  runSteps_perm cmp hc networkSteps networkSteps_valid val

theorem strictTotal_lessThan {T : Type} [LinearOrder T] :
    StrictTotal (LessThan.compare : T → T → Bool) where
  irrefl a := by simp [LessThan.compare]
  trans a b c := by
    simp only [LessThan.compare, decide_eq_true_eq]
    exact fun h1 h2 => lt_trans h1 h2
  total a b := by
    simp only [LessThan.compare, decide_eq_true_eq]
    exact lt_trichotomy a b

theorem strictTotal_greaterThan {T : Type} [LinearOrder T] :
    StrictTotal (GreaterThan.compare : T → T → Bool) where
  irrefl a := by simp [GreaterThan.compare]
  trans a b c := by
    simp only [GreaterThan.compare, decide_eq_true_eq]
    exact fun h1 h2 => lt_trans h2 h1
  total a b := by
    simp only [GreaterThan.compare, decide_eq_true_eq]
    rcases lt_trichotomy a b with h | h | h
    · exact Or.inr (Or.inr h)
    · exact Or.inr (Or.inl h)
    · exact Or.inl h

theorem Pair.lt_iff {K V : Type} [LinearOrder K] [LinearOrder V] (a b : Pair K V) :
    LessThan.compare a b = true ↔ a.k < b.k ∨ (a.k = b.k ∧ a.v < b.v) := by
  show decide (Pair.lt a b = true) = true ↔ _
  simp [Pair.lt]

theorem strictTotal_pair {K V : Type} [LinearOrder K] [LinearOrder V] :
    StrictTotal (LessThan.compare : Pair K V → Pair K V → Bool) where
  irrefl a := by
    cases h : LessThan.compare a a
    · rfl
    · rw [Pair.lt_iff] at h
      rcases h with h | ⟨-, h⟩ <;> exact absurd h (lt_irrefl _)
  trans a b c := by
    rw [Pair.lt_iff, Pair.lt_iff, Pair.lt_iff]
    rintro (h1 | ⟨h1, h1'⟩) (h2 | ⟨h2, h2'⟩)
    · exact Or.inl (lt_trans h1 h2)
    · exact Or.inl (h2 ▸ h1)
    · exact Or.inl (h1 ▸ h2)
    · exact Or.inr ⟨h1.trans h2, lt_trans h1' h2'⟩
  total a b := by
    rw [Pair.lt_iff, Pair.lt_iff]
    rcases lt_trichotomy a.k b.k with h | h | h
    · exact Or.inl (Or.inl h)
    · rcases lt_trichotomy a.v b.v with h' | h' | h'
      · exact Or.inl (Or.inr ⟨h, h'⟩)
      · refine Or.inr (Or.inl ?_)
        cases a; cases b; simp_all
      · exact Or.inr (Or.inr (Or.inr ⟨h.symm, h'⟩))
    · exact Or.inr (Or.inr (Or.inl h))

/-! ## Ascending and descending order on a totally ordered type -/

theorem sort_lessThan_monotone {T : Type} [LinearOrder T] (val : Warp T) :
    Monotone (warpBitonicSort LessThan.compare val) := by
  intro i j hij
  have h := warpBitonicSort_sorted LessThan.compare strictTotal_lessThan val i j hij
  simpa [LessThan.compare] using h

theorem sort_greaterThan_antitone {T : Type} [LinearOrder T] (val : Warp T) :
    Antitone (warpBitonicSort GreaterThan.compare val) := by
  intro i j hij
  have h := warpBitonicSort_sorted GreaterThan.compare strictTotal_greaterThan val i j hij
  simpa [GreaterThan.compare] using h

theorem sort_list_perm {T : Type} (cmp : T → T → Bool) (hc : StrictTotal cmp) (val : Warp T) :
    (List.ofFn (warpBitonicSort cmp val)).Perm (List.ofFn val) := by
  obtain ⟨σ, h⟩ := warpBitonicSort_perm cmp hc val
  have : warpBitonicSort cmp val = val ∘ σ := funext h
  rw [this]
  exact σ.ofFn_comp_perm val

/-! ## The collision predicate -/

theorem any_of_group_iff (pred : Warp Bool) :
    any_of_group pred = true ↔ ∃ i, pred i = true := by
  simp [any_of_group, List.any_eq_true, List.mem_finRange]

theorem getLaneId_eq (i : Fin WARP_SIZE) : getLaneId i = i.val :=
  Nat.mod_eq_of_lt i.isLt

/-- The lane below lane `i`. -/
theorem shift_group_right_one {T : Type} (x u : Warp T) (i : Fin WARP_SIZE) (hi : i.val ≠ 0) :
    shift_group_right x 1 u i = x ⟨i.val - 1, lt_of_le_of_lt (Nat.sub_le _ _) i.isLt⟩ := by
  simp only [shift_group_right]
  rw [if_pos (by omega)]

/-- The neighbour test at lane `i`: true exactly at a lane other than lane 0
whose lower neighbour holds an equal value, whatever lane 0 reads. -/
theorem dup_flag_iff {T : Type} [DecidableEq T] (x u : Warp T) (i : Fin WARP_SIZE) :
    ((shift_group_right x 1 u i == x i) && (getLaneId i != 0)) = true ↔
      ∃ _ : i.val ≠ 0, x ⟨i.val - 1, lt_of_le_of_lt (Nat.sub_le _ _) i.isLt⟩ = x i := by
  rw [getLaneId_eq]
  constructor
  · intro h
    simp only [Bool.and_eq_true, beq_iff_eq, bne_iff_ne, ne_eq] at h
    refine ⟨h.2, ?_⟩
    rw [← shift_group_right_one x u i h.2]
    exact h.1
  · rintro ⟨h, he⟩
    simp only [Bool.and_eq_true, beq_iff_eq, bne_iff_ne, ne_eq]
    exact ⟨by rw [shift_group_right_one x u i h]; exact he, h⟩

/-- In a non-decreasing lane assignment two lanes hold equal values exactly
when some lane equals its lower neighbour. -/
theorem adjacent_eq_iff {T : Type} [LinearOrder T] (x : Warp T) (hm : Monotone x) :
    (∃ i : Fin WARP_SIZE, ∃ _ : i.val ≠ 0,
        x ⟨i.val - 1, lt_of_le_of_lt (Nat.sub_le _ _) i.isLt⟩ = x i) ↔
      ∃ p q : Fin WARP_SIZE, p ≠ q ∧ x p = x q := by
  constructor
  · rintro ⟨i, hi, he⟩
    exact ⟨⟨i.val - 1, lt_of_le_of_lt (Nat.sub_le _ _) i.isLt⟩, i,
      fun h => by have := congrArg Fin.val h; simp at this; omega, he⟩
  · have key : ∀ p q : Fin WARP_SIZE, p < q → x p = x q →
        ∃ i : Fin WARP_SIZE, ∃ _ : i.val ≠ 0,
          x ⟨i.val - 1, lt_of_le_of_lt (Nat.sub_le _ _) i.isLt⟩ = x i := by
      intro p q hpq he
      have hpq' : p.val < q.val := hpq
      refine ⟨q, by omega, le_antisymm (hm (Fin.mk_le_of_le_val (by simp))) ?_⟩
      rw [← he]
      exact hm (Fin.mk_le_mk.mpr (by omega))
    rintro ⟨p, q, hne, he⟩
    rcases lt_or_gt_of_ne hne with h | h
    · exact key p q h he
    · exact key q p h he.symm

/-- The collision predicate on totally ordered values, whatever lane 0 reads
from the shift: true exactly when two different lanes hold equal values. -/
theorem hasCollision_iff {T : Type} [LinearOrder T] (val u : Warp T) (lane : Fin WARP_SIZE) :
    warpHasCollision val u lane = true ↔ ∃ i j : Fin WARP_SIZE, i ≠ j ∧ val i = val j := by
  obtain ⟨σ, hσ⟩ := warpBitonicSort_perm (LessThan.compare : T → T → Bool)
    strictTotal_lessThan val
  have hm := sort_lessThan_monotone val
  simp only [warpHasCollision, bne_iff_ne, ne_eq, Bool.not_eq_false, any_of_group_iff,
    dup_flag_iff, adjacent_eq_iff _ hm]
  constructor
  · rintro ⟨p, q, hne, he⟩
    rw [hσ, hσ] at he
    exact ⟨σ p, σ q, fun h => hne (σ.injective h), he⟩
  · rintro ⟨i, j, hne, he⟩
    refine ⟨σ.symm i, σ.symm j, fun h => hne (σ.symm.injective h), ?_⟩
    rw [hσ, hσ]
    simpa using he

/-! ## The collision mask -/

theorem sum_pow_lt_and_testBit (g : Nat → Bool) (n : Nat) :
    ((List.range n).map (fun i => if g i = true then 2 ^ i else 0)).sum < 2 ^ n ∧
    ∀ j, (((List.range n).map (fun i => if g i = true then 2 ^ i else 0)).sum).testBit j =
      (decide (j < n) && g j) := by
  induction n with
  | zero => simp
  | succ n ih =>
    obtain ⟨hlt, hbit⟩ := ih
    rw [List.range_succ, List.map_append, List.sum_append]
    simp only [List.map_cons, List.map_nil, List.sum_cons, List.sum_nil, Nat.add_zero]
    cases hg : g n
    · simp only [Bool.false_eq_true, if_false, Nat.add_zero]
      refine ⟨lt_trans hlt (Nat.pow_lt_pow_right (by norm_num) (Nat.lt_succ_self n)), fun j => ?_⟩
      rw [hbit]
      by_cases hj : j < n
      · simp [hj, Nat.lt_succ_of_lt hj]
      · by_cases hj' : j = n
        · subst hj'; simp [hg]
        · have : ¬ j < n + 1 := by omega
          simp [hj, this]
    · simp only [if_true]
      refine ⟨by rw [pow_succ]; omega, fun j => ?_⟩
      rw [Nat.add_comm]
      rcases Nat.lt_trichotomy j n with hj | hj | hj
      · rw [Nat.testBit_two_pow_add_gt hj, hbit]
        simp [hj, Nat.lt_succ_of_lt hj]
      · subst hj
        rw [Nat.testBit_two_pow_add_eq, Nat.testBit_lt_two_pow hlt]
        simp [hg]
      · have h1 : 2 ^ n + ((List.range n).map (fun i => if g i = true then 2 ^ i else 0)).sum
            < 2 ^ j := by
          have : 2 ^ (n + 1) ≤ 2 ^ j := Nat.pow_le_pow_right (by norm_num) hj
          rw [pow_succ] at this
          omega
        rw [Nat.testBit_lt_two_pow h1]
        have h2 : ¬ j < n + 1 := by omega
        simp [h2]

/-- The plus-reduction of the contributions `flag ? 1 << lane : 0` is the word
whose bit `j` is lane `j`'s flag. -/
theorem reduce_flags_testBit (flag : Warp Bool) (j : Fin WARP_SIZE) :
    (reduce_over_group_plus (fun i => if flag i = true then 0x1 <<< i.val else 0)).testBit j.val
      = flag j := by
  have hmap : (List.finRange WARP_SIZE).map
        (fun i : Fin WARP_SIZE => if flag i = true then 0x1 <<< i.val else 0) =
      (List.range WARP_SIZE).map (fun i =>
        if (if h : i < WARP_SIZE then flag ⟨i, h⟩ else false) = true then 2 ^ i else 0) := by
    rw [← List.map_coe_finRange, List.map_map]
    apply List.map_congr_left
    intro i _
    simp [Nat.one_shiftLeft]
  obtain ⟨hlt, hbit⟩ := sum_pow_lt_and_testBit
    (fun i => if h : i < WARP_SIZE then flag ⟨i, h⟩ else false) WARP_SIZE
  unfold reduce_over_group_plus
  rw [hmap, Nat.mod_eq_of_lt hlt, hbit]
  simp

theorem reduce_flags_lt (x : Warp Nat) : reduce_over_group_plus x < 2 ^ 32 :=
  Nat.mod_lt _ (by norm_num)

/-- In lanes sorted by `Pair::operator<` the first components are non-decreasing. -/
theorem sorted_pair_k {K V : Type} [LinearOrder K] [LinearOrder V] (P : Warp (Pair K V))
    (hs : ∀ i j : Fin WARP_SIZE, i ≤ j → LessThan.compare (P j) (P i) = false)
    (i j : Fin WARP_SIZE) (hij : i ≤ j) : (P i).k ≤ (P j).k := by
  by_contra h
  have hlt : LessThan.compare (P j) (P i) = true := (Pair.lt_iff _ _).mpr (Or.inl (not_le.mp h))
  rw [hs i j hij] at hlt
  exact absurd hlt (by decide)

/-- After the first sort, the neighbour test at sorted lane `i` is true exactly
when a lane below the origin lane of `i`'s pair holds the same value. -/
theorem sorted_flag_iff {T : Type} [LinearOrder T] (val : Warp T) (P : Warp (Pair T Nat))
    (σ : Equiv.Perm (Fin WARP_SIZE))
    (hP : ∀ i, P i = Pair.mk (val (σ i)) (σ i).val)
    (hs : ∀ i j : Fin WARP_SIZE, i ≤ j → LessThan.compare (P j) (P i) = false)
    (i : Fin WARP_SIZE) :
    (∃ _ : i.val ≠ 0, (P ⟨i.val - 1, lt_of_le_of_lt (Nat.sub_le _ _) i.isLt⟩).k = (P i).k) ↔
      ∃ a : Fin WARP_SIZE, a < σ i ∧ val a = val (σ i) := by
  constructor
  · rintro ⟨hi, he⟩
    have hle : (⟨i.val - 1, lt_of_le_of_lt (Nat.sub_le _ _) i.isLt⟩ : Fin WARP_SIZE) ≤ i :=
      Fin.mk_le_of_le_val (by simp)
    have hne : (⟨i.val - 1, lt_of_le_of_lt (Nat.sub_le _ _) i.isLt⟩ : Fin WARP_SIZE) ≠ i :=
      fun h => by have := congrArg Fin.val h; simp at this; omega
    have hns := hs _ _ hle
    refine ⟨σ ⟨i.val - 1, lt_of_le_of_lt (Nat.sub_le _ _) i.isLt⟩, ?_, ?_⟩
    · rcases lt_trichotomy (σ ⟨i.val - 1, lt_of_le_of_lt (Nat.sub_le _ _) i.isLt⟩) (σ i)
        with h | h | h
      · exact h
      · exact absurd (σ.injective h) hne
      · have : LessThan.compare (P i) (P ⟨i.val - 1, lt_of_le_of_lt (Nat.sub_le _ _) i.isLt⟩)
            = true := by
          rw [Pair.lt_iff]
          refine Or.inr ⟨he.symm, ?_⟩
          rw [hP, hP]
          exact h
        rw [hns] at this
        exact absurd this (by decide)
    · rw [hP, hP] at he
      exact he
  · rintro ⟨a, ha, he⟩
    have hlt : σ.symm a < i := by
      by_contra hge
      have h1 := hs i (σ.symm a) (not_lt.mp hge)
      have h2 : LessThan.compare (P (σ.symm a)) (P i) = true := by
        rw [Pair.lt_iff, hP, hP]
        simp only [Equiv.apply_symm_apply]
        exact Or.inr ⟨he, ha⟩
      rw [h1] at h2
      exact absurd h2 (by decide)
    have hlt' : (σ.symm a).val < i.val := Fin.lt_def.mp hlt
    refine ⟨by omega, le_antisymm (sorted_pair_k P hs _ _ (Fin.mk_le_of_le_val (by simp))) ?_⟩
    have hle : σ.symm a ≤ ⟨i.val - 1, lt_of_le_of_lt (Nat.sub_le _ _) i.isLt⟩ := by
      rw [Fin.le_def]
      show (σ.symm a).val ≤ i.val - 1
      omega
    have h3 := sorted_pair_k P hs (σ.symm a) ⟨i.val - 1, lt_of_le_of_lt (Nat.sub_le _ _) i.isLt⟩
      hle
    have h4 : (P i).k = (P (σ.symm a)).k := by
      rw [hP, hP]
      simp only [Equiv.apply_symm_apply]
      exact he.symm
    rw [h4]
    exact h3

/-- A strictly increasing map of the 32 lanes into themselves is the identity. -/
theorem strictMono_fin_id (f : Fin WARP_SIZE → Fin WARP_SIZE) (hmono : StrictMono f)
    (j : Fin WARP_SIZE) : f j = j := by
  have wf : WellFoundedLT (Fin 32) := inferInstance
  have wf' : WellFoundedGT (Fin 32) := inferInstance
  have h1 : f j ≤ j := (@StrictMono.le_id (Fin 32) _ wf' f hmono) j
  have h2 : j ≤ f j := (@StrictMono.id_le (Fin 32) _ wf f hmono) j
  exact le_antisymm h1 h2

/-- The second sort delivers every pair to the lane named by its first
component, when the first components are the lanes' ids in some order. -/
theorem sort_back {V : Type} [LinearOrder V] (d : Warp (Pair Nat V))
    (σ : Equiv.Perm (Fin WARP_SIZE)) (hd : ∀ i, (d i).k = (σ i).val) (j : Fin WARP_SIZE) :
    warpBitonicSort LessThan.compare d j = d (σ.symm j) := by
  obtain ⟨τ, hτ⟩ := warpBitonicSort_perm (LessThan.compare : Pair Nat V → Pair Nat V → Bool)
    strictTotal_pair d
  have hs := warpBitonicSort_sorted (LessThan.compare : Pair Nat V → Pair Nat V → Bool)
    strictTotal_pair d
  have hmono : StrictMono (fun j => σ (τ j)) := by
    intro a b hab
    have hk := sorted_pair_k _ hs a b (le_of_lt hab)
    rw [hτ, hτ, hd, hd] at hk
    rcases lt_or_eq_of_le (show σ (τ a) ≤ σ (τ b) from hk) with h | h
    · exact h
    · exact absurd (τ.injective (σ.injective h)) (ne_of_lt hab)
  have hid : σ (τ j) = j := strictMono_fin_id _ hmono j
  rw [hτ, (Equiv.eq_symm_apply σ).mpr hid]

/-- The bits of the collision mask, whatever lane 0 reads from the shift: bit
`j` is set exactly when a lower-numbered lane holds the value of lane `j`. -/
theorem collisionMask_testBit {T : Type} [LinearOrder T] (val u : Warp T)
    (lane j : Fin WARP_SIZE) :
    (warpCollisionMask val u lane).testBit j.val = true ↔
      ∃ i : Fin WARP_SIZE, i < j ∧ val i = val j := by
  obtain ⟨σ, hσ⟩ := warpBitonicSort_perm (LessThan.compare : Pair T Nat → Pair T Nat → Bool)
    strictTotal_pair (fun i => Pair.mk (val i) (getLaneId i))
  have hs := warpBitonicSort_sorted (LessThan.compare : Pair T Nat → Pair T Nat → Bool)
    strictTotal_pair (fun i => Pair.mk (val i) (getLaneId i))
  have hP : ∀ i, warpBitonicSort LessThan.compare (fun i => Pair.mk (val i) (getLaneId i)) i
      = Pair.mk (val (σ i)) (σ i).val := by
    intro i
    rw [hσ, getLaneId_eq]
  unfold warpCollisionMask
  rw [reduce_flags_testBit, sort_back _ σ (fun i => by simp only [hP]) j, dup_flag_iff,
    sorted_flag_iff val _ σ hP hs (σ.symm j)]
  simp only [Equiv.apply_symm_apply]

theorem collisionMask_lt {T : Type} [LinearOrder T] (val u : Warp T) (lane : Fin WARP_SIZE) :
    warpCollisionMask val u lane < 2 ^ 32 :=
  reduce_flags_lt _

theorem testBit_high_false {m : Nat} (hm : m < 2 ^ 32) {b : Nat} (hb : 32 ≤ b) :
    m.testBit b = false :=
  Nat.testBit_lt_two_pow (lt_of_lt_of_le hm (Nat.pow_le_pow_right (by norm_num) hb))

/-- The mask is non-zero exactly when one of its 32 bits is set. -/
theorem collisionMask_ne_zero_iff {T : Type} [LinearOrder T] (val u : Warp T)
    (lane : Fin WARP_SIZE) :
    warpCollisionMask val u lane ≠ 0 ↔
      ∃ j : Fin WARP_SIZE, (warpCollisionMask val u lane).testBit j.val = true := by
  constructor
  · intro h
    obtain ⟨b, hb⟩ := Nat.ne_zero_implies_bit_true h
    by_cases hlt : b < WARP_SIZE
    · exact ⟨⟨b, hlt⟩, hb⟩
    · rw [testBit_high_false (collisionMask_lt val u lane) (not_lt.mp hlt)] at hb
      exact absurd hb (by decide)
  · rintro ⟨j, hj⟩ h0
    rw [h0, Nat.zero_testBit] at hj
    exact absurd hj (by decide)

set_option maxRecDepth 100000 in
theorem expectedMask_testBit : ∀ k < 32, ∀ b < 32,
    (expectedMask k).testBit b = decide (32 - k ≤ b) := by
  decide!

theorem expectedMask_lt (k : Nat) : expectedMask k < 2 ^ 32 := by
  unfold expectedMask
  split_ifs
  · exact Nat.mod_lt _ (by norm_num)
  · norm_num

theorem testInput_distinct (k : Nat) (i j : Fin WARP_SIZE) (hi : i.val < 32 - k)
    (hj : j.val < 32 - k) (h : testInput k i = testInput k j) : i = j := by
  simp only [testInput, if_pos hi, if_pos hj] at h
  exact Fin.ext (by omega)

theorem testInput_copies (k : Nat) (hk : k < 32) (i : Fin WARP_SIZE) (hi : 32 - k ≤ i.val) :
    testInput k i = testInput k 0 := by
  have h0 : (0 : Fin WARP_SIZE).val < 32 - k := by simp only [Fin.val_zero]; omega
  simp only [testInput, if_neg (not_lt.mpr hi), if_pos h0]
  simp

/-- A mask is determined by the bits the characterisation gives it. -/
theorem collisionMask_eq_of_bits {T : Type} [LinearOrder T] (val u : Warp T)
    (lane : Fin WARP_SIZE) (m : Nat) (hm : m < 2 ^ 32)
    (h : ∀ j : Fin WARP_SIZE,
      m.testBit j.val = decide (∃ i : Fin WARP_SIZE, i < j ∧ val i = val j)) :
    warpCollisionMask val u lane = m := by
  apply Nat.eq_of_testBit_eq
  intro b
  by_cases hb : b < 32
  · have h1 := collisionMask_testBit val u lane ⟨b, hb⟩
    have h2 := h ⟨b, hb⟩
    rw [Bool.eq_iff_iff, h1, h2, decide_eq_true_iff]
  · rw [testBit_high_false (collisionMask_lt val u lane) (not_lt.mp hb),
      testBit_high_false hm (not_lt.mp hb)]

theorem farPairInput_mask (u : Warp Int) (lane : Fin WARP_SIZE) :
    warpCollisionMask farPairInput u lane = 0x20 :=
  collisionMask_eq_of_bits farPairInput u lane 0x20 (by norm_num) (by decide)

/-! ## The claims C1 to C10 -/

/-- Claim C1. For every assignment of 32 integers to the lanes (and every totally
ordered value type), `warpHasCollision` returns the same boolean at every lane,
and that boolean is true if and only if two different lanes hold equal values:
all distinct gives false, any repeated value gives true.  In particular the
inputs of `test_collision` (pairwise distinct values followed by copies of the
first) give `numDups > 0` at all 32 lanes. -/
theorem warpHasCollision_correct {T : Type} [LinearOrder T] (val unspecified : Warp T) :
    (∀ lane lane' : Fin WARP_SIZE,
      warpHasCollision val unspecified lane = warpHasCollision val unspecified lane') ∧
    (∀ lane : Fin WARP_SIZE, warpHasCollision val unspecified lane = true ↔
      ∃ i j : Fin WARP_SIZE, i ≠ j ∧ val i = val j) :=
  ⟨fun _ _ => rfl, fun lane => hasCollision_iff val unspecified lane⟩

/-- Witness for claim C1, on the inputs of `test_collision`: with no duplicate
the result is false, with one duplicate it is true, here at lanes 0 and 31. -/
theorem warpHasCollision_correct_witness :
    warpHasCollision (testInput 0) (fun _ => 0) 0 = false ∧
    warpHasCollision (testInput 1) (fun _ => 0) 0 = true ∧
    warpHasCollision (testInput 1) (fun _ => 0) 31 = true := by
  refine ⟨?_, ?_, ?_⟩
  · cases h : warpHasCollision (testInput 0) (fun _ => 0) 0
    · rfl
    · obtain ⟨i, j, hne, hv⟩ :=
        ((warpHasCollision_correct (testInput 0) (fun _ => 0)).2 0).mp h
      exact absurd (testInput_distinct 0 i j i.isLt j.isLt hv) hne
  · exact ((warpHasCollision_correct (testInput 1) (fun _ => 0)).2 0).mpr
      ⟨0, 31, by decide, by decide⟩
  · exact ((warpHasCollision_correct (testInput 1) (fun _ => 0)).2 31).mpr
      ⟨0, 31, by decide, by decide⟩

/-- Claim C2. For every assignment of 32 values to the lanes and every lane `j`
whose bit is set in the result of `warpCollisionMask`, there is a lane `i ≠ j`
whose bit is clear in the mask and whose input value equals lane `j`'s. -/
theorem warpCollisionMask_sound {T : Type} [LinearOrder T] (val unspecified : Warp T)
    (lane j : Fin WARP_SIZE)
    (hj : (warpCollisionMask val unspecified lane).testBit j.val = true) :
    ∃ i : Fin WARP_SIZE, i ≠ j ∧
      (warpCollisionMask val unspecified lane).testBit i.val = false ∧ val i = val j := by
  classical
  -- the lowest lane holding the value of lane `j`
  have hex : ∃ n : Nat, ∃ h : n < WARP_SIZE, val ⟨n, h⟩ = val j := ⟨j.val, j.isLt, rfl⟩
  obtain ⟨hlt, hval⟩ := Nat.find_spec hex
  refine ⟨⟨Nat.find hex, hlt⟩, ?_, ?_, hval⟩
  · intro he
    obtain ⟨i, hi, hv⟩ := (collisionMask_testBit val unspecified lane j).mp hj
    have hfj : Nat.find hex = j.val := congrArg Fin.val he
    exact Nat.find_min hex (show i.val < Nat.find hex by rw [hfj]; exact hi) ⟨i.isLt, hv⟩
  · cases hb : (warpCollisionMask val unspecified lane).testBit (Nat.find hex)
    · rfl
    · obtain ⟨i, hi, hv⟩ :=
        (collisionMask_testBit val unspecified lane ⟨Nat.find hex, hlt⟩).mp hb
      exact absurd ⟨i.isLt, hv.trans hval⟩ (Nat.find_min hex hi)

/-- Witness for claim C2: on the `test_collisionMask` input with one duplicate
bit 31 is set, and some other lane has a clear bit and the same value. -/
theorem warpCollisionMask_sound_witness :
    (warpCollisionMask (testInput 1) (fun _ => 0) 0).testBit (31 : Fin WARP_SIZE).val = true ∧
    ∃ i : Fin WARP_SIZE, i ≠ 31 ∧
      (warpCollisionMask (testInput 1) (fun _ => 0) 0).testBit i.val = false ∧
      testInput 1 i = testInput 1 31 :=
  ⟨(collisionMask_testBit (testInput 1) (fun _ => 0) 0 31).mpr ⟨0, by decide, by decide⟩,
   warpCollisionMask_sound (testInput 1) (fun _ => 0) 0 31
    ((collisionMask_testBit (testInput 1) (fun _ => 0) 0 31).mpr ⟨0, by decide, by decide⟩)⟩

/-- Claim C3. For every assignment of 32 values of a totally ordered type to the
lanes, after `warpBitonicSort` with the `LessThan` comparator the values held
by lanes 0..31 are non-decreasing in the lane id, and lane `k` holds the `k`-th
smallest value: the lanes, read in order, are the sorted list of the inputs. -/
theorem warpBitonicSort_lessThan_sorted {T : Type} [LinearOrder T] (val : Warp T) :
    (∀ i j : Fin WARP_SIZE, i ≤ j →
      warpBitonicSort LessThan.compare val i ≤ warpBitonicSort LessThan.compare val j) ∧
    List.ofFn (warpBitonicSort LessThan.compare val) =
      (List.ofFn val).insertionSort (fun a b => a ≤ b) := by
  refine ⟨fun i j hij => sort_lessThan_monotone val hij, ?_⟩
  refine List.eq_of_perm_of_sorted ?_ ?_ (List.sorted_insertionSort _ _)
  · exact (sort_list_perm _ strictTotal_lessThan val).trans
      (List.perm_insertionSort _ _).symm
  · exact List.sorted_le_ofFn_iff.mpr (sort_lessThan_monotone val)

/-- Witness for claim C3: on the `test_collision` input with one duplicate,
lanes 0 and 1 are in order after the ascending sort. -/
theorem warpBitonicSort_lessThan_sorted_witness :
    (0 : Fin WARP_SIZE) ≤ 1 ∧
    warpBitonicSort LessThan.compare (testInput 1) 0 ≤
      warpBitonicSort LessThan.compare (testInput 1) 1 :=
  ⟨by decide, (warpBitonicSort_lessThan_sorted (testInput 1)).1 0 1 (by decide)⟩

/-- Claim C4. For every assignment of 32 values of a totally ordered type to the
lanes, the values held by the lanes after `warpBitonicSort`, with `LessThan` as
with `GreaterThan`, are a permutation of the input values: the output is the
input read through a bijection of the lanes, so no value is created, dropped
or duplicated, equal inputs included. -/
theorem warpBitonicSort_permutes {T : Type} [LinearOrder T] (val : Warp T) :
    ((∃ σ : Equiv.Perm (Fin WARP_SIZE),
        ∀ i, warpBitonicSort LessThan.compare val i = val (σ i)) ∧
      (List.ofFn (warpBitonicSort LessThan.compare val)).Perm (List.ofFn val)) ∧
    ((∃ σ : Equiv.Perm (Fin WARP_SIZE),
        ∀ i, warpBitonicSort GreaterThan.compare val i = val (σ i)) ∧
      (List.ofFn (warpBitonicSort GreaterThan.compare val)).Perm (List.ofFn val)) :=
  ⟨⟨warpBitonicSort_perm _ strictTotal_lessThan val, sort_list_perm _ strictTotal_lessThan val⟩,
   ⟨warpBitonicSort_perm _ strictTotal_greaterThan val,
    sort_list_perm _ strictTotal_greaterThan val⟩⟩

/-- Claim C5. For every assignment of 32 integers to the lanes (and every totally
ordered value type), `warpCollisionMask` returns a non-zero mask if and only if
`warpHasCollision` returns true on the same input. -/
theorem warpCollisionMask_ne_zero_iff_hasCollision {T : Type} [LinearOrder T]
    (val unspecified unspecified' : Warp T) (lane lane' : Fin WARP_SIZE) :
    warpCollisionMask val unspecified lane ≠ 0 ↔
      warpHasCollision val unspecified' lane' = true := by
  rw [collisionMask_ne_zero_iff, hasCollision_iff]
  constructor
  · rintro ⟨j, hj⟩
    obtain ⟨i, hi, hv⟩ := (collisionMask_testBit val unspecified lane j).mp hj
    exact ⟨i, j, ne_of_lt hi, hv⟩
  · rintro ⟨i, j, hne, hv⟩
    rcases lt_or_gt_of_ne hne with h | h
    · exact ⟨j, (collisionMask_testBit val unspecified lane j).mpr ⟨i, h, hv⟩⟩
    · exact ⟨i, (collisionMask_testBit val unspecified lane i).mpr ⟨j, h, hv.symm⟩⟩

/-- Claim C6. For every `k` in 0..31 and every input whose first `32 - k` lane
values are pairwise distinct and whose last `k` lane values all equal lane 0's
value, `warpCollisionMask` returns what `test_collisionMask` expects: 0 when
`k = 0` and the 32-bit value `0xFFFFFFFF << (32 - k)`, that is exactly the bits
`32 - k .. 31`, when `k > 0`. -/
theorem warpCollisionMask_test_inputs {T : Type} [LinearOrder T] (val unspecified : Warp T)
    (lane : Fin WARP_SIZE) (k : Nat) (hk : k < 32)
    (hdistinct : ∀ i j : Fin WARP_SIZE, i.val < 32 - k → j.val < 32 - k → val i = val j → i = j)
    (hcopies : ∀ i : Fin WARP_SIZE, 32 - k ≤ i.val → val i = val 0) :
    warpCollisionMask val unspecified lane = expectedMask k ∧
    (k = 0 → warpCollisionMask val unspecified lane = 0) ∧
    (0 < k → ∀ b : Nat, (warpCollisionMask val unspecified lane).testBit b = true ↔
      32 - k ≤ b ∧ b < 32) := by
  have hbits : ∀ b : Nat, (warpCollisionMask val unspecified lane).testBit b =
      (decide (32 - k ≤ b) && decide (b < 32)) := by
    intro b
    by_cases hb : b < 32
    · have hiff := collisionMask_testBit val unspecified lane ⟨b, hb⟩
      simp only [hb, decide_True, Bool.and_true]
      by_cases hge : 32 - k ≤ b
      · rw [decide_eq_true hge]
        apply hiff.mpr
        refine ⟨0, Fin.lt_def.mpr (show 0 < b by omega), ?_⟩
        exact (hcopies ⟨b, hb⟩ hge).symm
      · rw [decide_eq_false hge]
        cases hbit : (warpCollisionMask val unspecified lane).testBit b
        · rfl
        · obtain ⟨i, hi, hv⟩ := hiff.mp hbit
          have hi' : i.val < b := hi
          have := hdistinct i ⟨b, hb⟩ (by omega) (by simp only; omega) hv
          rw [this] at hi
          exact absurd hi (lt_irrefl _)
    · rw [testBit_high_false (collisionMask_lt val unspecified lane) (not_lt.mp hb)]
      simp [hb]
  have heq : warpCollisionMask val unspecified lane = expectedMask k := by
    apply Nat.eq_of_testBit_eq
    intro b
    rw [hbits]
    by_cases hb : b < 32
    · rw [expectedMask_testBit k hk b hb]
      simp [hb]
    · rw [testBit_high_false (expectedMask_lt k) (not_lt.mp hb)]
      simp [hb]
  refine ⟨heq, fun h0 => ?_, fun _ b => ?_⟩
  · rw [heq, h0]
    rfl
  · rw [hbits]
    simp

/-- Witness for claim C6: the hypotheses are met by the inputs
`test_collisionMask` checks, `numDups = 0` and `numDups = 1`, and by 32
identical values (`k = 31`); the masks are 0, `0x80000000` (bit 31 alone) and
`0xFFFFFFFE` (31 bits). -/
theorem warpCollisionMask_test_inputs_witness :
    warpCollisionMask (testInput 0) (fun _ => 0) 0 = 0 ∧
    warpCollisionMask (testInput 1) (fun _ => 0) 0 = 0x80000000 ∧
    warpCollisionMask (testInput 31) (fun _ => 0) 0 = 0xFFFFFFFE :=
  ⟨(warpCollisionMask_test_inputs (testInput 0) (fun _ => 0) 0 0 (by decide)
      (testInput_distinct 0) (testInput_copies 0 (by decide))).1,
   (warpCollisionMask_test_inputs (testInput 1) (fun _ => 0) 0 1 (by decide)
      (testInput_distinct 1) (testInput_copies 1 (by decide))).1,
   (warpCollisionMask_test_inputs (testInput 31) (fun _ => 0) 0 31 (by decide)
      (testInput_distinct 31) (testInput_copies 31 (by decide))).1⟩

/-- Claim C7, evaluated at the failing input.  With lanes 0 and 5 holding the same
value and all other values distinct, the mask is `0x20` and
`mask | (mask >> 1)` is `0x30`: bit 4 is set although no other lane holds lane
4's value, and bit 0 is clear although lane 5 holds lane 0's value. -/
theorem warpCollisionMask_or_shift_farPair :
    warpCollisionMask farPairInput (fun _ => 0) 0 = 0x20 ∧
    (warpCollisionMask farPairInput (fun _ => 0) 0 |||
      (warpCollisionMask farPairInput (fun _ => 0) 0 >>> 1)) = 0x30 ∧
    ((warpCollisionMask farPairInput (fun _ => 0) 0 |||
      (warpCollisionMask farPairInput (fun _ => 0) 0 >>> 1)).testBit 4 = true ∧
      ¬ ∃ i : Fin WARP_SIZE, i ≠ 4 ∧ farPairInput i = farPairInput 4) ∧
    ((warpCollisionMask farPairInput (fun _ => 0) 0 |||
      (warpCollisionMask farPairInput (fun _ => 0) 0 >>> 1)).testBit 0 = false ∧
      ∃ i : Fin WARP_SIZE, i ≠ 0 ∧ farPairInput i = farPairInput 0) := by
  rw [farPairInput_mask]
  exact ⟨rfl, by decide, ⟨by decide, by decide⟩, ⟨by decide, 5, by decide, by decide⟩⟩

/-- Claim C8, as stated, fails: on the input with lanes 0 and 5 holding the same
value, lane 0's value equals the value of another lane, yet bit 0 of the mask
is clear. -/
theorem warpCollisionMask_flag_not_any_other :
    ¬ ((warpCollisionMask farPairInput (fun _ => 0) 0).testBit (0 : Fin WARP_SIZE).val = true ↔
      ∃ i : Fin WARP_SIZE, i ≠ 0 ∧ farPairInput i = farPairInput 0) := by
  rw [farPairInput_mask]
  intro h
  have := h.mpr ⟨5, by decide, by decide⟩
  exact absurd this (by decide)

/-- Claim C8, amended.  For every input and every lane `j`, the duplicate flag
lane `j` holds at the end of `warpCollisionMask` (bit `j` of the returned mask)
is true if and only if lane `j`'s original value equals the value of at least
one lower-numbered lane; the lowest lane of every class of equal values is
left unflagged. -/
theorem warpCollisionMask_flag_iff_lower {T : Type} [LinearOrder T]
    (val unspecified : Warp T) (lane j : Fin WARP_SIZE) :
    (warpCollisionMask val unspecified lane).testBit j.val = true ↔
      ∃ i : Fin WARP_SIZE, i < j ∧ val i = val j :=
  collisionMask_testBit val unspecified lane j

/-- Claim C9. For every assignment of 32 integers to the lanes (and every totally
ordered value type) and every permutation of the lanes, `warpHasCollision`
returns the same result on the permuted input as on the original input. -/
theorem warpHasCollision_perm_invariant {T : Type} [LinearOrder T]
    (val unspecified unspecified' : Warp T) (σ : Equiv.Perm (Fin WARP_SIZE))
    (lane lane' : Fin WARP_SIZE) :
    warpHasCollision (fun i => val (σ i)) unspecified' lane' =
      warpHasCollision val unspecified lane := by
  rw [Bool.eq_iff_iff, hasCollision_iff, hasCollision_iff]
  constructor
  · rintro ⟨i, j, hne, hv⟩
    exact ⟨σ i, σ j, fun h => hne (σ.injective h), hv⟩
  · rintro ⟨i, j, hne, hv⟩
    exact ⟨σ.symm i, σ.symm j, fun h => hne (σ.symm.injective h), by simpa using hv⟩

/-- Claim C10. For every assignment of 32 values to the lanes, hence also for
every permutation of it, the number of bits set in the result of
`warpCollisionMask` (a 32-bit word, so all its set bits are among the 32
counted) is at most the number of lanes whose value is also held by another
lane. -/
theorem warpCollisionMask_popcount_le {T : Type} [LinearOrder T]
    (val unspecified : Warp T) (lane : Fin WARP_SIZE) :
    warpCollisionMask val unspecified lane < 2 ^ 32 ∧
    popcount (warpCollisionMask val unspecified lane) ≤ numberOfDuplicatedValues val ∧
    ∀ σ : Equiv.Perm (Fin WARP_SIZE),
      popcount (warpCollisionMask (fun i => val (σ i)) unspecified lane) ≤
        numberOfDuplicatedValues (fun i => val (σ i)) := by
  have key : ∀ w : Warp T,
      popcount (warpCollisionMask w unspecified lane) ≤ numberOfDuplicatedValues w := by
    intro w
    apply Finset.card_le_card
    intro j hj
    simp only [Finset.mem_filter, Finset.mem_univ, true_and] at hj ⊢
    obtain ⟨i, hi, hv⟩ := (collisionMask_testBit w unspecified lane j).mp hj
    exact ⟨i, ne_of_lt hi, hv⟩
  exact ⟨collisionMask_lt val unspecified lane, key val, fun σ => key _⟩

/-! ## Further lemmas: pairs, single steps, stage prefixes, the generic network -/

theorem Pair.lt_eq_true_iff {K V : Type} [LinearOrder K] [LinearOrder V] (a b : Pair K V) :
    Pair.lt a b = true ↔ a.k < b.k ∨ (a.k = b.k ∧ a.v < b.v) := by
  simp [Pair.lt]

theorem Pair.eq_eq_true_iff {K V : Type} [DecidableEq K] [DecidableEq V] (a b : Pair K V) :
    Pair.eq a b = true ↔ a = b := by
  cases a; cases b; simp [Pair.eq]

/-- A bit of the mask is clear exactly at the lowest lane of a class of lanes
holding equal values. -/
theorem collisionMask_clear_iff {T : Type} [LinearOrder T] (val u : Warp T)
    (lane j : Fin WARP_SIZE) :
    (warpCollisionMask val u lane).testBit j.val = false ↔
      ∀ i : Fin WARP_SIZE, val i = val j → j ≤ i := by
  have h := collisionMask_testBit val u lane j
  constructor
  · intro hb i hv
    by_contra hlt
    have := h.mpr ⟨i, not_le.mp hlt, hv⟩
    rw [hb] at this
    exact absurd this (by decide)
  · intro hmin
    cases hb : (warpCollisionMask val u lane).testBit j.val
    · rfl
    · obtain ⟨i, hi, hv⟩ := h.mp hb
      exact absurd (hmin i hv) (not_le.mpr hi)

set_option maxRecDepth 100000 in
theorem twoPairsInput_pairs : ∀ i j : Fin WARP_SIZE, i < j → twoPairsInput i = twoPairsInput j →
    (i = 1 ∧ j = 4) ∨ (i = 2 ∧ j = 9) := by
  decide

/-- `warpCollisionMask` in terms of its intermediate values: the mask is the
reduction over the flags of `dup` after the second sort. -/
theorem warpCollisionMask_eq_stages {T : Type} [LT T] [DecidableRel (fun a b : T => a < b)]
    [DecidableEq T] (val unspecified : Warp T) :
    warpCollisionMask val unspecified = fun _ => reduce_over_group_plus
      (fun i => if (collisionMask_dupSorted val unspecified i).v then 0x1 <<< i.val else 0) :=
  rfl

/-- The first sort of `warpCollisionMask`: the lanes hold the input pairs read
through a permutation, in strictly increasing order. -/
theorem collisionMask_pVal_spec {T : Type} [LinearOrder T] (val : Warp T) :
    ∃ σ : Equiv.Perm (Fin WARP_SIZE),
      (∀ i, collisionMask_pVal val i = Pair.mk (val (σ i)) (σ i).val) ∧
      (∀ i j : Fin WARP_SIZE, i < j →
        LessThan.compare (collisionMask_pVal val i) (collisionMask_pVal val j) = true) := by
  have hst : StrictTotal (LessThan.compare : Pair T Nat → Pair T Nat → Bool) := strictTotal_pair
  obtain ⟨σ, hσ⟩ := warpBitonicSort_perm (LessThan.compare : Pair T Nat → Pair T Nat → Bool)
    hst (fun i => Pair.mk (val i) (getLaneId i))
  have hs := warpBitonicSort_sorted (LessThan.compare : Pair T Nat → Pair T Nat → Bool)
    hst (fun i => Pair.mk (val i) (getLaneId i))
  have hP : ∀ i, collisionMask_pVal val i = Pair.mk (val (σ i)) (σ i).val := by
    intro i
    unfold collisionMask_pVal
    rw [hσ, getLaneId_eq]
  refine ⟨σ, hP, fun i j hij => ?_⟩
  rcases hst.total (collisionMask_pVal val i) (collisionMask_pVal val j) with h | h | h
  · exact h
  · rw [hP, hP] at h
    have hv : (σ i).val = (σ j).val := congrArg Pair.v h
    exact absurd (σ.injective (Fin.ext hv)) (ne_of_lt hij)
  · have := hs i j (le_of_lt hij)
    unfold collisionMask_pVal at h
    rw [this] at h
    exact absurd h (by decide)

/-- With `LessThan`, a lane with direction bit 0 ends a step with the smaller of
its own and its partner's item, a lane with direction bit 1 with the larger. -/
theorem shflSwap_lessThan_min_max {T : Type} [LinearOrder T] (x : Warp T)
    (mask : Fin WARP_SIZE) (dir : Warp Nat) (i : Fin WARP_SIZE) :
    (dir i = 0 → shflSwap LessThan.compare x mask dir i = min (x i) (x (xorLane i mask))) ∧
    (dir i = 1 → shflSwap LessThan.compare x mask dir i = max (x i) (x (xorLane i mask))) := by
  simp only [shflSwap, shfl_xor, permute_group_by_xor, LessThan.compare]
  constructor
  · intro h
    rw [h]
    by_cases hlt : x i < x (xorLane i mask)
    · rw [decide_eq_true hlt, if_neg (by decide), min_eq_left (le_of_lt hlt)]
    · rw [decide_eq_false hlt, if_pos (by decide), min_eq_right (not_lt.mp hlt)]
  · intro h
    rw [h]
    by_cases hlt : x i < x (xorLane i mask)
    · rw [decide_eq_true hlt, if_pos (by decide), max_eq_right (le_of_lt hlt)]
    · rw [decide_eq_false hlt, if_neg (by decide), max_eq_left (not_lt.mp hlt)]

/-- With `GreaterThan` the roles are exchanged: direction bit 0 gives the larger
item, direction bit 1 the smaller. -/
theorem shflSwap_greaterThan_max_min {T : Type} [LinearOrder T] (x : Warp T)
    (mask : Fin WARP_SIZE) (dir : Warp Nat) (i : Fin WARP_SIZE) :
    (dir i = 0 → shflSwap GreaterThan.compare x mask dir i = max (x i) (x (xorLane i mask))) ∧
    (dir i = 1 → shflSwap GreaterThan.compare x mask dir i = min (x i) (x (xorLane i mask))) := by
  simp only [shflSwap, shfl_xor, permute_group_by_xor, GreaterThan.compare, gt_iff_lt]
  constructor
  · intro h
    rw [h]
    by_cases hlt : x (xorLane i mask) < x i
    · rw [decide_eq_true hlt, if_neg (by decide), max_eq_left (le_of_lt hlt)]
    · rw [decide_eq_false hlt, if_pos (by decide), max_eq_right (not_lt.mp hlt)]
  · intro h
    rw [h]
    by_cases hlt : x (xorLane i mask) < x i
    · rw [decide_eq_true hlt, if_pos (by decide), min_eq_right (le_of_lt hlt)]
    · rw [decide_eq_false hlt, if_neg (by decide), min_eq_left (not_lt.mp hlt)]

theorem pair_min_max {T : Type} [LinearOrder T] (a b : T) :
    ({min a b, max b a} : Multiset T) = {a, b} ∧ ({max a b, min b a} : Multiset T) = {a, b} := by
  rcases le_total a b with h | h
  · rw [min_eq_left h, max_eq_left h, max_eq_right h, min_eq_right h]
    exact ⟨rfl, Multiset.pair_comm b a⟩
  · rw [min_eq_right h, max_eq_right h, max_eq_left h, min_eq_left h]
    exact ⟨Multiset.pair_comm b a, rfl⟩

/-- The two direction bits of an exchange pair are 0 and 1, one each. -/
theorem Step.Valid.opposite {st : Step} (h : st.Valid) (i : Fin WARP_SIZE) :
    (st.dir i = 0 ∧ st.dir (xorLane i st.mask) = 1) ∨
    (st.dir i = 1 ∧ st.dir (xorLane i st.mask) = 0) := by
  have := (h i).2.1
  omega

theorem runSteps_append {T : Type} (cmp : T → T → Bool) (l1 l2 : List Step) (v : Warp T) :
    runSteps cmp (l1 ++ l2) v = runSteps cmp l2 (runSteps cmp l1 v) := by
  simp only [runSteps, List.foldl_append]

/-- The first `(t + 1) (t + 2) / 2` steps are the first `t (t + 1) / 2` steps
followed by the steps of stage `t + 1`. -/
theorem take_steps_succ (t : Nat) (ht : t < 5) :
    networkSteps.take ((t + 1) * (t + 1 + 1) / 2) =
      networkSteps.take (t * (t + 1) / 2) ++ stageSteps (t + 1) := by
  interval_cases t <;> rfl

/-- On boolean lanes, after the first `s (s + 1) / 2` steps the aligned blocks
of `2 ^ s` lanes are sorted, alternately ascending and descending. -/
theorem prefix_blocksSorted (b : Warp Bool) (s : Nat) (hs : s ≤ 5) :
    BlocksSorted s (runSteps LessThan.compare (networkSteps.take (s * (s + 1) / 2)) b) := by
  induction s with
  | zero => exact blocksSorted_zero b
  | succ t ih =>
    rw [take_steps_succ t (by omega), runSteps_append]
    exact stage_blocksSorted t (by omega) _ (ih (by omega))

set_option maxRecDepth 100000 in
theorem blocks_pattern : ∀ s < 6, ∀ c < 2 ^ s + 1, ∀ i : Fin WARP_SIZE,
    (blocks s c c).testBit i.val =
      if i.val / 2 ^ s % 2 = 0 then decide (2 ^ s ≤ i.val % 2 ^ s + c)
      else decide (i.val % 2 ^ s < c) := by
  decide!

theorem getBit_eq_div_mod (val pos : Nat) : getBit val pos = val / 2 ^ pos % 2 := by
  unfold getBit
  rw [Nat.shiftRight_eq_div_pow, Nat.and_one_is_mod]

theorem mod_le_mod_of_same_block (i j p : Nat) (hij : i ≤ j) (hb : i / p = j / p) :
    i % p ≤ j % p := by
  have hi := Nat.div_add_mod i p
  have hj := Nat.div_add_mod j p
  rw [hb] at hi
  generalize p * (j / p) = z at hi hj
  omega

/-- Inside an aligned block of `2 ^ s` lanes the pattern `blocks s c c` is
ascending when bit `s` of the lane ids is 0 and descending when it is 1. -/
theorem blocks_monotone (s : Nat) (hs : s < 6) (c : Nat) (hc : c ≤ 2 ^ s)
    (i j : Fin WARP_SIZE) (hij : i ≤ j) (hb : i.val / 2 ^ s = j.val / 2 ^ s) :
    (getBit i.val s = 0 → (blocks s c c).testBit i.val = true →
      (blocks s c c).testBit j.val = true) ∧
    (getBit i.val s = 1 → (blocks s c c).testBit j.val = true →
      (blocks s c c).testBit i.val = true) := by
  have hmod := mod_le_mod_of_same_block i.val j.val (2 ^ s) hij hb
  rw [getBit_eq_div_mod, blocks_pattern s hs c (Nat.lt_succ_of_le hc) i,
    blocks_pattern s hs c (Nat.lt_succ_of_le hc) j, ← hb]
  constructor
  · intro h0
    rw [if_pos h0, if_pos h0, decide_eq_true_eq, decide_eq_true_eq]
    omega
  · intro h1
    have hne : ¬ i.val / 2 ^ s % 2 = 0 := by omega
    rw [if_neg hne, if_neg hne, decide_eq_true_eq, decide_eq_true_eq]
    omega

/-- After the first `s (s + 1) / 2` steps with `LessThan`, the aligned blocks of
`2 ^ s` lanes are sorted, for values of any totally ordered type. -/
theorem prefix_blocks_sorted {T : Type} [LinearOrder T] (val : Warp T) (s : Nat) (hs : s ≤ 5)
    (i j : Fin WARP_SIZE) (hij : i ≤ j) (hb : i.val / 2 ^ s = j.val / 2 ^ s) :
    (getBit i.val s = 0 →
      runSteps LessThan.compare (networkSteps.take (s * (s + 1) / 2)) val i ≤
        runSteps LessThan.compare (networkSteps.take (s * (s + 1) / 2)) val j) ∧
    (getBit i.val s = 1 →
      runSteps LessThan.compare (networkSteps.take (s * (s + 1) / 2)) val j ≤
        runSteps LessThan.compare (networkSteps.take (s * (s + 1) / 2)) val i) := by
  have key : ∀ t : T, ∃ c, c ≤ 2 ^ s ∧ ∀ k : Fin WARP_SIZE, k.val / 2 ^ s = i.val / 2 ^ s →
      (!LessThan.compare
        (runSteps LessThan.compare (networkSteps.take (s * (s + 1) / 2)) val k) t) =
        (blocks s c c).testBit k.val := by
    intro t
    have hf : ∀ a b : T, LessThan.compare a b = true → (!LessThan.compare a t) = true →
        (!LessThan.compare b t) = true := by
      intro a b hab ha
      simp only [LessThan.compare, Bool.not_eq_true', decide_eq_false_iff_not, not_lt,
        decide_eq_true_eq] at *
      exact le_trans ha (le_of_lt hab)
    have hmap := runSteps_map (LessThan.compare : T → T → Bool) strictTotal_lessThan
      (fun a => !LessThan.compare a t) hf (networkSteps.take (s * (s + 1) / 2)) val
    obtain ⟨c, hc, h⟩ := prefix_blocksSorted (fun k => !LessThan.compare (val k) t) s hs i
    refine ⟨c, hc, fun k hk => ?_⟩
    rw [← h k hk, ← hmap]
  constructor
  · intro h0
    by_contra hnot
    obtain ⟨c, hc, h⟩ :=
      key (runSteps LessThan.compare (networkSteps.take (s * (s + 1) / 2)) val i)
    have hi := h i rfl
    have hj := h j hb.symm
    have hmono := (blocks_monotone s (by omega) c hc i j hij hb).1 h0
    rw [← hi, ← hj] at hmono
    simp only [LessThan.compare, lt_self_iff_false, decide_False, Bool.not_false,
      Bool.not_eq_true', decide_eq_false_iff_not, forall_const] at hmono
    exact hnot (not_lt.mp hmono)
  · intro h1
    by_contra hnot
    obtain ⟨c, hc, h⟩ :=
      key (runSteps LessThan.compare (networkSteps.take (s * (s + 1) / 2)) val j)
    have hi := h i rfl
    have hj := h j hb.symm
    have hmono := (blocks_monotone s (by omega) c hc i j hij hb).2 h1
    rw [← hi, ← hj] at hmono
    simp only [LessThan.compare, lt_self_iff_false, decide_False, Bool.not_false,
      Bool.not_eq_true', decide_eq_false_iff_not, forall_const] at hmono
    exact hnot (not_lt.mp hmono)

theorem getBit_five (i : Fin WARP_SIZE) : getBit (getLaneId i) 5 = 0 := by
  revert i
  decide

theorem genericStage_eq_stageSteps {T : Type} (cmp : T → T → Bool) (val : Warp T) :
    genericStage cmp 1 val = runSteps cmp (stageSteps 1) val ∧
    genericStage cmp 2 val = runSteps cmp (stageSteps 2) val ∧
    genericStage cmp 3 val = runSteps cmp (stageSteps 3) val ∧
    genericStage cmp 4 val = runSteps cmp (stageSteps 4) val ∧
    genericStage cmp 5 val = runSteps cmp (stageSteps 5) val := by
  refine ⟨rfl, rfl, rfl, rfl, ?_⟩
  have h5 : ∀ j : Nat, (fun i : Fin WARP_SIZE => getBit (getLaneId i) 5 ^^^ getBit (getLaneId i) j)
      = dir1 j := by
    intro j
    funext i
    rw [getBit_five, Nat.zero_xor]
    rfl
  unfold genericStage
  simp only [h5]
  rfl

/-! ## The claims C11 to C20 -/

/-- Claim C11. For every assignment of 32 values of a totally ordered type to the
lanes, after `warpBitonicSort` with the `GreaterThan` comparator the lanes are
in non-increasing order and lane 0 holds the highest of the 32 input values:
it is one of the inputs and no input is above it. -/
theorem warpBitonicSort_greaterThan_highest_first {T : Type} [LinearOrder T] (val : Warp T) :
    (∀ i j : Fin WARP_SIZE, i ≤ j →
      warpBitonicSort GreaterThan.compare val j ≤ warpBitonicSort GreaterThan.compare val i) ∧
    (∀ i : Fin WARP_SIZE, val i ≤ warpBitonicSort GreaterThan.compare val 0) ∧
    (∃ i : Fin WARP_SIZE, warpBitonicSort GreaterThan.compare val 0 = val i) := by
  obtain ⟨σ, hσ⟩ := warpBitonicSort_perm (GreaterThan.compare : T → T → Bool)
    strictTotal_greaterThan val
  refine ⟨fun i j hij => sort_greaterThan_antitone val hij, fun i => ?_, ⟨σ 0, hσ 0⟩⟩
  have h := sort_greaterThan_antitone val (Fin.zero_le (σ.symm i))
  rw [hσ (σ.symm i), Equiv.apply_symm_apply] at h
  exact h

/-- Claim C12, as stated, fails.  Lane 0 holds 0, its partner under mask 1 holds
1 and the direction bit is 1; `LessThan` gives `compare(0, 1) = 1`, equal to the
direction bit, and the lane does not keep its own item: it ends with the
partner's. -/
theorem shflSwap_keep_when_equal_fails :
    ¬ ((LessThan.compare (farPairInput 0) (farPairInput (xorLane 0 1))).toNat = 1 →
      shflSwap LessThan.compare farPairInput 1 (fun _ => 1) 0 = farPairInput 0) := by
  decide

/-- Claim C12, amended.  In one compare-exchange step (`shflSwap`), for every own
item, partner item and direction bit: the lane adopts the partner's item if
`compare(own, partner)` equals the direction bit, and otherwise keeps its own
item. -/
theorem shflSwap_adopts_partner_iff {T : Type} (compare : T → T → Bool) (x : Warp T)
    (mask : Fin WARP_SIZE) (dir : Warp Nat) (i : Fin WARP_SIZE) :
    ((compare (x i) (x (xorLane i mask))).toNat = dir i →
      shflSwap compare x mask dir i = x (xorLane i mask)) ∧
    ((compare (x i) (x (xorLane i mask))).toNat ≠ dir i →
      shflSwap compare x mask dir i = x i) := by
  constructor
  · intro h
    simp only [shflSwap, shfl_xor, permute_group_by_xor]
    rw [if_pos h]
  · intro h
    simp only [shflSwap, shfl_xor, permute_group_by_xor]
    rw [if_neg h]

/-- Witness for claim C12: with own item 0 and partner item 1 under `LessThan`,
direction bit 1 makes the lane adopt the partner's 1, direction bit 0 makes it
keep its own 0. -/
theorem shflSwap_adopts_partner_iff_witness :
    ((LessThan.compare (farPairInput 0) (farPairInput (xorLane 0 1))).toNat = 1 ∧
      shflSwap LessThan.compare farPairInput 1 (fun _ => 1) 0 = farPairInput (xorLane 0 1)) ∧
    ((LessThan.compare (farPairInput 0) (farPairInput (xorLane 0 1))).toNat ≠ 0 ∧
      shflSwap LessThan.compare farPairInput 1 (fun _ => 0) 0 = farPairInput 0) :=
  ⟨⟨by decide, (shflSwap_adopts_partner_iff LessThan.compare farPairInput 1 (fun _ => 1) 0).1
      (by decide)⟩,
   ⟨by decide, (shflSwap_adopts_partner_iff LessThan.compare farPairInput 1 (fun _ => 0) 0).2
      (by decide)⟩⟩

/-- Claim C13. `Pair::operator<` is the strict lexicographic order, by `k` with
ties broken by `v`: for components from total orders it is irreflexive and
transitive, for any two pairs exactly one of `a < b`, `a == b`, `b < a` holds,
`a > b` holds if and only if `b < a`, and pairs with equal keys but different
second components are strictly ordered one way or the other. -/
theorem Pair.lt_strict_lexicographic {K V : Type} [LinearOrder K] [LinearOrder V] :
    (∀ a b : Pair K V, Pair.lt a b = true ↔ a.k < b.k ∨ (a.k = b.k ∧ a.v < b.v)) ∧
    (∀ a : Pair K V, Pair.lt a a = false) ∧
    (∀ a b c : Pair K V, Pair.lt a b = true → Pair.lt b c = true → Pair.lt a c = true) ∧
    (∀ a b : Pair K V,
      (Pair.lt a b = true ∧ Pair.eq a b = false ∧ Pair.lt b a = false) ∨
      (Pair.lt a b = false ∧ Pair.eq a b = true ∧ Pair.lt b a = false) ∨
      (Pair.lt a b = false ∧ Pair.eq a b = false ∧ Pair.lt b a = true)) ∧
    (∀ a b : Pair K V, Pair.gt a b = Pair.lt b a) ∧
    (∀ a b : Pair K V, a.k = b.k → a.v ≠ b.v → Pair.lt a b = true ∨ Pair.lt b a = true) := by
  have hst : StrictTotal (LessThan.compare : Pair K V → Pair K V → Bool) := strictTotal_pair
  have hcmp : ∀ a b : Pair K V, LessThan.compare a b = Pair.lt a b := by
    intro a b
    rw [Bool.eq_iff_iff, Pair.lt_iff, Pair.lt_eq_true_iff]
  have hne : ∀ a b : Pair K V, a ≠ b → Pair.eq a b = false := by
    intro a b h
    cases he : Pair.eq a b
    · rfl
    · exact absurd ((Pair.eq_eq_true_iff a b).mp he) h
  refine ⟨Pair.lt_eq_true_iff, fun a => ?_, fun a b c => ?_, fun a b => ?_, fun a b => ?_,
    fun a b hk hv => ?_⟩
  · rw [← hcmp]; exact hst.irrefl a
  · rw [← hcmp, ← hcmp, ← hcmp]; exact hst.trans a b c
  · rw [← hcmp, ← hcmp]
    rcases hst.total a b with h | h | h
    · refine Or.inl ⟨h, hne a b ?_, hst.asymm a b h⟩
      intro he
      rw [he, hst.irrefl] at h
      exact absurd h (by decide)
    · refine Or.inr (Or.inl ⟨?_, (Pair.eq_eq_true_iff a b).mpr h, ?_⟩)
      · rw [h]; exact hst.irrefl b
      · rw [h]; exact hst.irrefl b
    · refine Or.inr (Or.inr ⟨hst.asymm b a h, hne a b ?_, h⟩)
      intro he
      rw [he, hst.irrefl] at h
      exact absurd h (by decide)
  · rw [Bool.eq_iff_iff, Pair.lt_eq_true_iff]
    simp only [Pair.gt, gt_iff_lt, Bool.or_eq_true, decide_eq_true_eq, Bool.and_eq_true,
      beq_iff_eq]
    constructor
    · rintro (h | ⟨h1, h2⟩)
      · exact Or.inl h
      · exact Or.inr ⟨h1.symm, h2⟩
    · rintro (h | ⟨h1, h2⟩)
      · exact Or.inl h
      · exact Or.inr ⟨h1.symm, h2⟩
  · rw [Pair.lt_eq_true_iff, Pair.lt_eq_true_iff]
    rcases lt_or_gt_of_ne hv with h | h
    · exact Or.inl (Or.inr ⟨hk, h⟩)
    · exact Or.inr (Or.inr ⟨hk.symm, h⟩)

set_option maxRecDepth 100000 in
/-- Claim C14. The masks of the 15 steps are 0x01, 0x02, 0x04, 0x08 and 0x10, and
for every lane id `i` in 0..31 and each of these masks the exchange partner
`i XOR mask` is again a lane id in 0..31, is different from `i`, and its own
partner is `i`; the lanes below their partner number 16, so every step splits
the 32 lanes into 16 disjoint pairs and never reads outside the group. -/
theorem exchange_partner_pairs_lanes :
    (∀ st ∈ networkSteps, st.mask.val ∈ [0x01, 0x02, 0x04, 0x08, 0x10]) ∧
    (∀ m ∈ [0x01, 0x02, 0x04, 0x08, 0x10], ∀ i < 32, i ^^^ m < 32) ∧
    (∀ mask : Fin WARP_SIZE, mask.val ∈ [0x01, 0x02, 0x04, 0x08, 0x10] →
      ∀ i : Fin WARP_SIZE,
        (xorLane i mask).val = i.val ^^^ mask.val ∧ xorLane i mask ≠ i ∧
        xorLane (xorLane i mask) mask = i) ∧
    (∀ mask : Fin WARP_SIZE, mask.val ∈ [0x01, 0x02, 0x04, 0x08, 0x10] →
      (Finset.univ.filter (fun i : Fin WARP_SIZE => i < xorLane i mask)).card = 16) := by
  refine ⟨by decide!, by decide!, by decide!, by decide!⟩

/-- Claim C15. For every assignment of 32 values to the lanes and every lane `j`,
bit `j` of the result of `warpCollisionMask` is set if and only if some lane
`i < j` holds a value equal to lane `j`'s; bit 0 is never set; a bit is clear
exactly at the lowest-numbered lane of its class of equal-valued lanes; and two
unrelated colliding pairs `a < b` and `c < d`, all other values distinct, give
exactly the bits `b` and `d`. -/
theorem warpCollisionMask_bits {T : Type} [LinearOrder T] (val unspecified : Warp T)
    (lane : Fin WARP_SIZE) :
    (∀ j : Fin WARP_SIZE, (warpCollisionMask val unspecified lane).testBit j.val = true ↔
      ∃ i : Fin WARP_SIZE, i < j ∧ val i = val j) ∧
    (warpCollisionMask val unspecified lane).testBit 0 = false ∧
    (∀ j : Fin WARP_SIZE, (warpCollisionMask val unspecified lane).testBit j.val = false ↔
      ∀ i : Fin WARP_SIZE, val i = val j → j ≤ i) ∧
    (∀ a b c d : Fin WARP_SIZE, a < b → c < d → val a = val b → val c = val d →
      (∀ i j : Fin WARP_SIZE, i < j → val i = val j → (i = a ∧ j = b) ∨ (i = c ∧ j = d)) →
      (∀ j : Fin WARP_SIZE, (warpCollisionMask val unspecified lane).testBit j.val = true ↔
        j = b ∨ j = d) ∧
      warpCollisionMask val unspecified lane = 2 ^ b.val ||| 2 ^ d.val) := by
  refine ⟨fun j => collisionMask_testBit val unspecified lane j, ?_,
    fun j => collisionMask_clear_iff val unspecified lane j, ?_⟩
  · exact (collisionMask_clear_iff val unspecified lane 0).mpr (fun i _ => Fin.zero_le i)
  · intro a b c d hab hcd hvab hvcd hother
    have hbits : ∀ j : Fin WARP_SIZE,
        (warpCollisionMask val unspecified lane).testBit j.val = true ↔ j = b ∨ j = d := by
      intro j
      rw [collisionMask_testBit]
      constructor
      · rintro ⟨i, hi, hv⟩
        rcases hother i j hi hv with ⟨-, h⟩ | ⟨-, h⟩
        · exact Or.inl h
        · exact Or.inr h
      · rintro (h | h)
        · exact ⟨a, h ▸ hab, h ▸ hvab⟩
        · exact ⟨c, h ▸ hcd, h ▸ hvcd⟩
    refine ⟨hbits, ?_⟩
    apply Nat.eq_of_testBit_eq
    intro n
    rw [Nat.testBit_or, Nat.testBit_two_pow, Nat.testBit_two_pow]
    by_cases hn : n < 32
    · have h := hbits ⟨n, hn⟩
      rw [Bool.eq_iff_iff, h]
      simp only [Bool.or_eq_true, decide_eq_true_eq]
      constructor
      · rintro (h1 | h1)
        · exact Or.inl (by rw [← h1])
        · exact Or.inr (by rw [← h1])
      · rintro (h1 | h1)
        · exact Or.inl (Fin.ext h1.symm)
        · exact Or.inr (Fin.ext h1.symm)
    · rw [testBit_high_false (collisionMask_lt val unspecified lane) (not_lt.mp hn)]
      have hb : b.val ≠ n := fun h => hn (h ▸ b.isLt)
      have hd : d.val ≠ n := fun h => hn (h ▸ d.isLt)
      simp [hb, hd]

/-- Witness for claim C15: with lanes 1 and 4 holding one value and lanes 2 and 9
another, all other values distinct, the mask is `0x210`, bits 4 and 9. -/
theorem warpCollisionMask_bits_witness :
    ((1 : Fin WARP_SIZE) < 4 ∧ (2 : Fin WARP_SIZE) < 9 ∧
      twoPairsInput 1 = twoPairsInput 4 ∧ twoPairsInput 2 = twoPairsInput 9) ∧
    warpCollisionMask twoPairsInput (fun _ => 0) 0 = 0x210 :=
  ⟨⟨by decide, by decide, by decide, by decide⟩,
   ((warpCollisionMask_bits twoPairsInput (fun _ => 0) 0).2.2.2 1 4 2 9 (by decide) (by decide)
      (by decide) (by decide) twoPairsInput_pairs).2⟩

/-- Claim C16. After the first sort in `warpCollisionMask` the pairs held by lanes
0..31 are exactly the input pairs `(value of lane i, i)` arranged in strictly
increasing lexicographic order: the lanes hold the input pairs read through a
permutation of the lanes, so every pair `(k, v)` has `k` the input value of
lane `v` and the origin ids `v` are a permutation of 0..31; the pairs increase
strictly under `Pair::operator<`, the values are non-decreasing, and among
lanes holding equal values the origin ids increase with the lane id. -/
theorem collisionMask_first_sort {T : Type} [LinearOrder T] (val : Warp T) :
    (∃ σ : Equiv.Perm (Fin WARP_SIZE),
      ∀ i, collisionMask_pVal val i = Pair.mk (val (σ i)) (σ i).val) ∧
    (∀ i : Fin WARP_SIZE, ∃ h : (collisionMask_pVal val i).v < WARP_SIZE,
      (collisionMask_pVal val i).k = val ⟨(collisionMask_pVal val i).v, h⟩) ∧
    (∀ l : Fin WARP_SIZE, ∃ i : Fin WARP_SIZE, (collisionMask_pVal val i).v = l.val) ∧
    (∀ i j : Fin WARP_SIZE, i < j →
      Pair.lt (collisionMask_pVal val i) (collisionMask_pVal val j) = true) ∧
    (∀ i j : Fin WARP_SIZE, i < j →
      (collisionMask_pVal val i).k ≤ (collisionMask_pVal val j).k) ∧
    (∀ i j : Fin WARP_SIZE, i < j →
      (collisionMask_pVal val i).k = (collisionMask_pVal val j).k →
      (collisionMask_pVal val i).v < (collisionMask_pVal val j).v) := by
  obtain ⟨σ, hP, hlt⟩ := collisionMask_pVal_spec val
  have hlt' : ∀ i j : Fin WARP_SIZE, i < j →
      (collisionMask_pVal val i).k < (collisionMask_pVal val j).k ∨
      ((collisionMask_pVal val i).k = (collisionMask_pVal val j).k ∧
        (collisionMask_pVal val i).v < (collisionMask_pVal val j).v) :=
    fun i j hij => (Pair.lt_iff _ _).mp (hlt i j hij)
  refine ⟨⟨σ, hP⟩, fun i => ?_, fun l => ?_, fun i j hij => ?_, fun i j hij => ?_,
    fun i j hij hk => ?_⟩
  · rw [hP]
    exact ⟨(σ i).isLt, rfl⟩
  · exact ⟨σ.symm l, by rw [hP, Equiv.apply_symm_apply]⟩
  · exact (Pair.lt_eq_true_iff _ _).mpr (hlt' i j hij)
  · rcases hlt' i j hij with h | ⟨h, -⟩
    · exact le_of_lt h
    · exact le_of_eq h
  · rcases hlt' i j hij with h | ⟨-, h⟩
    · exact absurd hk (ne_of_lt h)
    · exact h

/-- Claim C17. For every input, after the second sort in `warpCollisionMask`
every lane `j` holds the pair whose origin-lane component equals `j`: it is the
pair `dup` held before the sort at the lane `p` where the first sort had put
the input pair `(value of lane j, j)`, so the duplicate flag computed for the
value that originated at lane `j` is delivered to lane `j`. -/
theorem collisionMask_second_sort {T : Type} [LinearOrder T] (val unspecified : Warp T)
    (j : Fin WARP_SIZE) :
    (collisionMask_dupSorted val unspecified j).k = j.val ∧
    ∃ p : Fin WARP_SIZE,
      collisionMask_pVal val p = Pair.mk (val j) j.val ∧
      (collisionMask_dup val unspecified p).k = j.val ∧
      collisionMask_dupSorted val unspecified j = collisionMask_dup val unspecified p := by
  obtain ⟨σ, hP, -⟩ := collisionMask_pVal_spec val
  have hd : ∀ i, (collisionMask_dup val unspecified i).k = (σ i).val := by
    intro i
    simp only [collisionMask_dup, hP]
  have hback := sort_back (collisionMask_dup val unspecified) σ hd j
  have hk : (collisionMask_dup val unspecified (σ.symm j)).k = j.val := by
    rw [hd, Equiv.apply_symm_apply]
  refine ⟨?_, σ.symm j, ?_, hk, hback⟩
  · unfold collisionMask_dupSorted
    rw [hback, hk]
  · rw [hP, Equiv.apply_symm_apply]

/-- Claim C18. In each of the 15 steps of `warpBitonicSort` the two lanes of every
exchange pair `(i, i XOR mask)` have opposite direction bits, and therefore, for
items of a totally ordered type, the two lanes end the step holding the same two
items they started with, as a multiset, with `LessThan` as with `GreaterThan`;
with `LessThan` the lane whose direction bit is 0 holds the smaller and the lane
whose direction bit is 1 holds the larger. -/
theorem shflSwap_pair_exchange {T : Type} [LinearOrder T] :
    networkSteps.length = 15 ∧
    ∀ st ∈ networkSteps, ∀ i : Fin WARP_SIZE,
      ((st.dir i = 0 ∧ st.dir (xorLane i st.mask) = 1) ∨
        (st.dir i = 1 ∧ st.dir (xorLane i st.mask) = 0)) ∧
      ∀ x : Warp T,
        (({shflSwap LessThan.compare x st.mask st.dir i,
            shflSwap LessThan.compare x st.mask st.dir (xorLane i st.mask)} : Multiset T) =
          {x i, x (xorLane i st.mask)}) ∧
        (({shflSwap GreaterThan.compare x st.mask st.dir i,
            shflSwap GreaterThan.compare x st.mask st.dir (xorLane i st.mask)} : Multiset T) =
          {x i, x (xorLane i st.mask)}) ∧
        (st.dir i = 0 →
          shflSwap LessThan.compare x st.mask st.dir i = min (x i) (x (xorLane i st.mask))) ∧
        (st.dir i = 1 →
          shflSwap LessThan.compare x st.mask st.dir i = max (x i) (x (xorLane i st.mask))) := by
  refine ⟨rfl, fun st hst i => ?_⟩
  have hv := networkSteps_valid st hst
  refine ⟨hv.opposite i, fun x => ?_⟩
  have hl := shflSwap_lessThan_min_max x st.mask st.dir i
  have hl' := shflSwap_lessThan_min_max x st.mask st.dir (xorLane i st.mask)
  have hg := shflSwap_greaterThan_max_min x st.mask st.dir i
  have hg' := shflSwap_greaterThan_max_min x st.mask st.dir (xorLane i st.mask)
  rw [xorLane_xorLane] at hl' hg'
  refine ⟨?_, ?_, hl.1, hl.2⟩
  · rcases hv.opposite i with ⟨h0, h1⟩ | ⟨h1, h0⟩
    · rw [hl.1 h0, hl'.2 h1]
      exact (pair_min_max _ _).1
    · rw [hl.2 h1, hl'.1 h0]
      exact (pair_min_max _ _).2
  · rcases hv.opposite i with ⟨h0, h1⟩ | ⟨h1, h0⟩
    · rw [hg.1 h0, hg'.2 h1]
      exact (pair_min_max _ _).2
    · rw [hg.2 h1, hg'.1 h0]
      exact (pair_min_max _ _).1

/-- Claim C19. For every input and each `s` in 1..4, after the first
`s (s + 1) / 2` steps of `warpBitonicSort` with `LessThan` (after the groups
commented 2, 4, 8, 16) every aligned block of `2 ^ s` consecutive lanes is
sorted: non-decreasing when bit `s` of its lane ids is 0 and non-increasing
when bit `s` is 1.  The two halves of an aligned block of `2 ^ (s + 1)` lanes
are such blocks with bit `s` equal to 0 and to 1, so that block enters the next
stage as a bitonic sequence. -/
theorem warpBitonicSort_stage_blocks_sorted {T : Type} [LinearOrder T] (val : Warp T) :
    warpBitonicSort LessThan.compare val = runSteps LessThan.compare networkSteps val ∧
    ∀ s : Nat, 1 ≤ s → s ≤ 4 → ∀ i j : Fin WARP_SIZE, i ≤ j →
      i.val / 2 ^ s = j.val / 2 ^ s →
      (getBit i.val s = 0 →
        runSteps LessThan.compare (networkSteps.take (s * (s + 1) / 2)) val i ≤
          runSteps LessThan.compare (networkSteps.take (s * (s + 1) / 2)) val j) ∧
      (getBit i.val s = 1 →
        runSteps LessThan.compare (networkSteps.take (s * (s + 1) / 2)) val j ≤
          runSteps LessThan.compare (networkSteps.take (s * (s + 1) / 2)) val i) :=
  ⟨rfl, fun s _ hs i j hij hb => prefix_blocks_sorted val s (by omega) i j hij hb⟩

/-- Witness for claim C19: after the first step (`s = 1`) lanes 0 and 1, an
aligned block with bit 1 clear, are in non-decreasing order, and lanes 2 and 3,
an aligned block with bit 1 set, are in non-increasing order. -/
theorem warpBitonicSort_stage_blocks_sorted_witness :
    ((0 : Fin WARP_SIZE) ≤ 1 ∧ (0 : Fin WARP_SIZE).val / 2 ^ 1 = (1 : Fin WARP_SIZE).val / 2 ^ 1 ∧
      getBit (0 : Fin WARP_SIZE).val 1 = 0 ∧
      runSteps LessThan.compare (networkSteps.take (1 * (1 + 1) / 2)) farPairInput 0 ≤
        runSteps LessThan.compare (networkSteps.take (1 * (1 + 1) / 2)) farPairInput 1) ∧
    ((2 : Fin WARP_SIZE) ≤ 3 ∧ (2 : Fin WARP_SIZE).val / 2 ^ 1 = (3 : Fin WARP_SIZE).val / 2 ^ 1 ∧
      getBit (2 : Fin WARP_SIZE).val 1 = 1 ∧
      runSteps LessThan.compare (networkSteps.take (1 * (1 + 1) / 2)) farPairInput 3 ≤
        runSteps LessThan.compare (networkSteps.take (1 * (1 + 1) / 2)) farPairInput 2) :=
  ⟨⟨by decide, by decide, by decide,
    ((warpBitonicSort_stage_blocks_sorted farPairInput).2 1 (by decide) (by decide) 0 1
      (by decide) (by decide)).1 (by decide)⟩,
   ⟨by decide, by decide, by decide,
    ((warpBitonicSort_stage_blocks_sorted farPairInput).2 1 (by decide) (by decide) 2 3
      (by decide) (by decide)).2 (by decide)⟩⟩

/-- Claim C20. The hand-unrolled `warpBitonicSort` equals the generic bitonic
network on 32 lanes: for `s = 1..5` and, within each `s`, for `j = s - 1` down
to `0`, one compare-exchange with mask `2 ^ j` and direction bit
`getBit(lane, s) XOR getBit(lane, j)`, where `getBit(lane, 5) = 0` at every
lane.  The unrolled network has 15 steps, `s` of them in stage `s`, and both
networks produce the same output at every lane for every input and
comparator. -/
theorem warpBitonicSort_eq_genericBitonicSort {T : Type} (compare : T → T → Bool)
    (val : Warp T) :
    warpBitonicSort compare val = genericBitonicSort compare val ∧
    (∀ lane : Fin WARP_SIZE,
      warpBitonicSort compare val lane = genericBitonicSort compare val lane) ∧
    (∀ lane : Fin WARP_SIZE, getBit (getLaneId lane) 5 = 0) ∧
    networkSteps.length = 15 ∧
    (∀ s ∈ [1, 2, 3, 4, 5], (stageSteps s).length = s ∧
      ∀ v : Warp T, genericStage compare s v = runSteps compare (stageSteps s) v) := by
  have hstage : ∀ s ∈ [1, 2, 3, 4, 5], (stageSteps s).length = s ∧
      ∀ v : Warp T, genericStage compare s v = runSteps compare (stageSteps s) v := by
    intro s hs
    simp only [List.mem_cons, List.mem_singleton, List.not_mem_nil, or_false] at hs
    rcases hs with h | h | h | h | h <;> subst h
    · exact ⟨rfl, fun v => (genericStage_eq_stageSteps compare v).1⟩
    · exact ⟨rfl, fun v => (genericStage_eq_stageSteps compare v).2.1⟩
    · exact ⟨rfl, fun v => (genericStage_eq_stageSteps compare v).2.2.1⟩
    · exact ⟨rfl, fun v => (genericStage_eq_stageSteps compare v).2.2.2.1⟩
    · exact ⟨rfl, fun v => (genericStage_eq_stageSteps compare v).2.2.2.2⟩
  have heq : warpBitonicSort compare val = genericBitonicSort compare val := by
    rw [warpBitonicSort_eq_runSteps]
    simp only [genericBitonicSort, List.foldl]
    rw [(hstage 1 (by decide)).2, (hstage 2 (by decide)).2, (hstage 3 (by decide)).2,
      (hstage 4 (by decide)).2, (hstage 5 (by decide)).2]
  exact ⟨heq, fun lane => congrFun heq lane, getBit_five, rfl, hstage⟩

/-! ## Further lemmas: the reduction, adjacent classes, the shift at lane 0 -/

theorem foldl_or_testBit (l : List Nat) (init j : Nat) :
    (l.foldl (fun acc c => acc ||| c) init).testBit j =
      (init.testBit j || l.any (fun c => c.testBit j)) := by
  induction l generalizing init with
  | nil => simp
  | cons a rest ih =>
    rw [List.foldl_cons, ih, Nat.testBit_or, List.any_cons, Bool.or_assoc]

/-- Bit `j` of the OR-reduction of the contributions `flag ? 1 << lane : 0` is
lane `j`'s flag, and no bit from 32 on is set. -/
theorem reduce_or_flags_testBit (flag : Warp Bool) (j : Nat) :
    (reduce_over_group_or (fun i => if flag i = true then 0x1 <<< i.val else 0)).testBit j =
      if h : j < WARP_SIZE then flag ⟨j, h⟩ else false := by
  unfold reduce_over_group_or
  rw [foldl_or_testBit, Nat.zero_testBit, Bool.false_or, Bool.eq_iff_iff]
  simp only [List.any_eq_true, List.mem_map, List.mem_finRange, true_and]
  constructor
  · rintro ⟨c, ⟨i, rfl⟩, hi⟩
    by_cases hf : flag i = true
    · rw [if_pos hf, Nat.one_shiftLeft, Nat.testBit_two_pow] at hi
      have hij : i.val = j := by simpa using hi
      have hj : j < WARP_SIZE := hij ▸ i.isLt
      rw [dif_pos hj]
      have : i = ⟨j, hj⟩ := Fin.ext hij
      rw [← this]
      exact hf
    · rw [if_neg hf, Nat.zero_testBit] at hi
      exact absurd hi (by decide)
  · intro h
    by_cases hj : j < WARP_SIZE
    · rw [dif_pos hj] at h
      refine ⟨_, ⟨⟨j, hj⟩, rfl⟩, ?_⟩
      rw [if_pos h, Nat.one_shiftLeft, Nat.testBit_two_pow]
      simp
    · rw [dif_neg hj] at h
      exact absurd h (by decide)

/-- The plus-reduction and the OR-reduction of the contributions agree. -/
theorem reduce_plus_eq_or (flag : Warp Bool) :
    reduce_over_group_plus (fun i => if flag i = true then 0x1 <<< i.val else 0) =
      reduce_over_group_or (fun i => if flag i = true then 0x1 <<< i.val else 0) := by
  apply Nat.eq_of_testBit_eq
  intro j
  rw [reduce_or_flags_testBit]
  by_cases hj : j < WARP_SIZE
  · rw [dif_pos hj]
    exact reduce_flags_testBit flag ⟨j, hj⟩
  · rw [dif_neg hj]
    exact testBit_high_false (reduce_flags_lt _) (not_lt.mp hj)

theorem asInt32_emod (n : Nat) : asInt32 n % 2 ^ 32 = ((n % 2 ^ 32 : Nat) : Int) := by
  unfold asInt32
  have h : (n % 2 ^ 32 : Nat) < 2 ^ 32 := Nat.mod_lt _ (by norm_num)
  split_ifs <;> omega

/-- Adding up the contributions as signed 32-bit `int`s and reading the sum as
an `unsigned int` gives the same word as adding them up as naturals modulo
`2 ^ 32`. -/
theorem sum_asInt32_emod (l : List Nat) :
    (l.map asInt32).sum % 2 ^ 32 = ((l.sum % 2 ^ 32 : Nat) : Int) := by
  induction l with
  | nil => simp
  | cons a rest ih =>
    rw [List.map_cons, List.sum_cons, List.sum_cons, Int.add_emod, ih, asInt32_emod]
    omega

/-- The neighbour test does not look at what lane 0 receives from the shift. -/
theorem dup_flag_indep {T : Type} [DecidableEq T] (x u u' : Warp T) (i : Fin WARP_SIZE) :
    ((shift_group_right x 1 u i == x i) && (getLaneId i != 0)) =
      ((shift_group_right x 1 u' i == x i) && (getLaneId i != 0)) := by
  by_cases hi : i.val = 0
  · have h0 : (getLaneId i != 0) = false := by
      rw [getLaneId_eq, hi]
      rfl
    rw [h0, Bool.and_false, Bool.and_false]
  · rw [shift_group_right_one x u i hi, shift_group_right_one x u' i hi]

/-- The neighbour test is false at lane 0. -/
theorem dup_flag_lane0 {T : Type} [DecidableEq T] (x u : Warp T) :
    ((shift_group_right x 1 u 0 == x 0) && (getLaneId 0 != 0)) = false := by
  have h0 : (getLaneId (0 : Fin WARP_SIZE) != 0) = false := by decide
  rw [h0, Bool.and_false]

theorem adjacentInput_monotone (i j : Fin WARP_SIZE) (hij : i ≤ j) :
    adjacentInput i ≤ adjacentInput j := by
  have h : i.val ≤ j.val := hij
  simp only [adjacentInput]
  split_ifs <;> omega

theorem adjacentInput_adjacent : ∀ i j k : Fin WARP_SIZE, i ≤ k → k ≤ j →
    adjacentInput i = adjacentInput j → adjacentInput k = adjacentInput i := by
  intro i j k hik hkj hv
  apply le_antisymm
  · rw [hv]
    exact adjacentInput_monotone k j hkj
  · exact adjacentInput_monotone i k hik

/-! ## The claims C21 to C23 -/

/-- Claim C21. For every assignment of 32 boolean flags to the lanes, the
plus-reduction used by `warpCollisionMask` over the contributions
`flag_j ? 1 << j : 0`, taken in 32-bit arithmetic, equals the bitwise OR of
those contributions: the resulting word has bit `j` set if and only if `flag_j`
is true, and no bit from 32 on.  This also holds with the contributions added
as signed `int`s, lane 31's being `-2 ^ 31`, and the sum read as an
`unsigned int`. -/
theorem reduce_over_group_plus_is_or (flag : Warp Bool) :
    reduce_over_group_plus (fun i => if flag i = true then 0x1 <<< i.val else 0) =
      reduce_over_group_or (fun i => if flag i = true then 0x1 <<< i.val else 0) ∧
    (∀ j : Fin WARP_SIZE,
      ((reduce_over_group_plus (fun i => if flag i = true then 0x1 <<< i.val else 0)).testBit
        j.val = true ↔ flag j = true)) ∧
    (∀ j : Nat, 32 ≤ j →
      (reduce_over_group_plus (fun i => if flag i = true then 0x1 <<< i.val else 0)).testBit j
        = false) ∧
    asInt32 (0x1 <<< 31) = -2 ^ 31 ∧
    ((List.finRange WARP_SIZE).map
        (fun i => asInt32 (if flag i = true then 0x1 <<< i.val else 0))).sum % 2 ^ 32 =
      ((reduce_over_group_plus (fun i => if flag i = true then 0x1 <<< i.val else 0) : Nat) :
        Int) := by
  refine ⟨reduce_plus_eq_or flag, fun j => ?_, fun j hj => ?_, by decide, ?_⟩
  · rw [reduce_flags_testBit]
  · exact testBit_high_false (reduce_flags_lt _) hj
  · have h := sum_asInt32_emod ((List.finRange WARP_SIZE).map
      (fun i => if flag i = true then 0x1 <<< i.val else 0))
    rw [List.map_map] at h
    exact h

/-- Claim C22. For every input in which each set of lanes holding a common value
occupies consecutive lane ids, with `mask = warpCollisionMask(input)` the value
`mask | (mask >> 1)` has bit `j` set exactly for the lanes `j` whose value is
also held by another lane. -/
theorem warpCollisionMask_or_shift_adjacent {T : Type} [LinearOrder T]
    (val unspecified : Warp T) (lane : Fin WARP_SIZE)
    (hadj : ∀ i j k : Fin WARP_SIZE, i ≤ k → k ≤ j → val i = val j → val k = val i)
    (j : Fin WARP_SIZE) :
    (maskOrShift (warpCollisionMask val unspecified lane)).testBit j.val = true ↔
      ∃ i : Fin WARP_SIZE, i ≠ j ∧ val i = val j := by
  unfold maskOrShift
  rw [Nat.testBit_or, Nat.testBit_shiftRight, Bool.or_eq_true, collisionMask_testBit]
  constructor
  · rintro (⟨i, hi, hv⟩ | h)
    · exact ⟨i, ne_of_lt hi, hv⟩
    · by_cases hj : 1 + j.val < 32
      · obtain ⟨i, hi, hv⟩ := (collisionMask_testBit val unspecified lane ⟨1 + j.val, hj⟩).mp h
        have hij : i ≤ j := Fin.le_def.mpr (by have := Fin.lt_def.mp hi; simp only at this; omega)
        have hjk : j ≤ ⟨1 + j.val, hj⟩ := Fin.le_def.mpr (by simp only; omega)
        refine ⟨⟨1 + j.val, hj⟩, fun he => ?_, ?_⟩
        · have := congrArg Fin.val he
          simp only at this
          omega
        · rw [hadj i ⟨1 + j.val, hj⟩ j hij hjk hv, hv]
      · rw [testBit_high_false (collisionMask_lt val unspecified lane) (not_lt.mp hj)] at h
        exact absurd h (by decide)
  · rintro ⟨i, hne, hv⟩
    rcases lt_or_gt_of_ne hne with h | h
    · exact Or.inl ⟨i, h, hv⟩
    · right
      have hji : j.val < i.val := Fin.lt_def.mp h
      have hi32 : i.val < 32 := i.isLt
      have hj : 1 + j.val < 32 := by omega
      apply (collisionMask_testBit val unspecified lane ⟨1 + j.val, hj⟩).mpr
      refine ⟨j, Fin.lt_def.mpr (by simp only; omega), ?_⟩
      have h1 : j ≤ (⟨1 + j.val, hj⟩ : Fin WARP_SIZE) := Fin.le_def.mpr (by simp only; omega)
      have h2 : (⟨1 + j.val, hj⟩ : Fin WARP_SIZE) ≤ i := Fin.le_def.mpr (by simp only; omega)
      exact (hadj j i ⟨1 + j.val, hj⟩ h1 h2 hv.symm).symm

/-- Witness for claim C22: on the input whose lanes 0..3 hold one value and
whose other values are distinct, equal values sit in adjacent lanes, and
`mask | (mask >> 1)` has bit 0 set exactly because another lane holds lane 0's
value. -/
theorem warpCollisionMask_or_shift_adjacent_witness :
    (∀ i j k : Fin WARP_SIZE, i ≤ k → k ≤ j →
      adjacentInput i = adjacentInput j → adjacentInput k = adjacentInput i) ∧
    ((maskOrShift (warpCollisionMask adjacentInput (fun _ => 0) 0)).testBit
        (0 : Fin WARP_SIZE).val = true ↔
      ∃ i : Fin WARP_SIZE, i ≠ 0 ∧ adjacentInput i = adjacentInput 0) :=
  ⟨adjacentInput_adjacent,
   warpCollisionMask_or_shift_adjacent adjacentInput (fun _ => 0) 0 adjacentInput_adjacent 0⟩

/-- Claim C23. The results of `warpHasCollision` and `warpCollisionMask` do not
depend on what lane 0 receives from the shift-by-one neighbour read: for every
input and any two values delivered to lane 0 both functions return the same
result, and the flag computed at sorted lane 0 is always false.  Every model of
the shift that agrees with `shift_group_right` on lanes 1..31 is
`shift_group_right` with some value delivered to lane 0, lane 0's own value
included. -/
theorem shift_lane0_value_irrelevant {T : Type} [LT T] [DecidableRel (fun a b : T => a < b)]
    [DecidableEq T] (val unspecified unspecified' : Warp T) :
    warpHasCollision val unspecified = warpHasCollision val unspecified' ∧
    warpCollisionMask val unspecified = warpCollisionMask val unspecified' ∧
    (collisionMask_dup val unspecified 0).v = false ∧
    ((shift_group_right (warpBitonicSort LessThan.compare val) 1 unspecified 0 ==
        warpBitonicSort LessThan.compare val 0) && (getLaneId 0 != 0)) = false ∧
    (∀ (shiftModel : Warp T → Warp T) (x : Warp T),
      (∀ i : Fin WARP_SIZE, i.val ≠ 0 → shiftModel x i =
        x ⟨i.val - 1, lt_of_le_of_lt (Nat.sub_le _ _) i.isLt⟩) →
      shiftModel x = shift_group_right x 1 (shiftModel x)) ∧
    shift_group_right val 1 val 0 = val 0 := by
  have h : ∀ x : Warp T,
      (fun i => (shift_group_right x 1 unspecified i == x i) && (getLaneId i != 0)) =
      (fun i => (shift_group_right x 1 unspecified' i == x i) && (getLaneId i != 0)) :=
    fun x => funext (dup_flag_indep x unspecified unspecified')
  refine ⟨?_, ?_, ?_, dup_flag_lane0 _ _, ?_, ?_⟩
  · unfold warpHasCollision
    simp only [h]
  · have hdup : collisionMask_dup val unspecified = collisionMask_dup val unspecified' := by
      funext i
      simp only [collisionMask_dup]
      rw [dup_flag_indep _ unspecified unspecified']
    rw [warpCollisionMask_eq_stages, warpCollisionMask_eq_stages]
    unfold collisionMask_dupSorted
    rw [hdup]
  · simp only [collisionMask_dup]
    exact dup_flag_lane0 _ _
  · intro shiftModel x hx
    funext i
    by_cases hi : i.val = 0
    · simp only [shift_group_right]
      rw [if_neg (by omega)]
    · rw [shift_group_right_one x _ i hi]
      exact hx i hi
  · simp only [shift_group_right]
    rw [if_neg (by decide)]

end Collision

namespace Sosfil

/-! ## The stores to `x_in`, phase by phase -/

theorem forRange_add (lo : Int) (m : Nat) :
    forRange lo (lo + (m : Int)) = (List.range m).map (fun k : Nat => lo + (k : Int)) := by
  unfold forRange
  have h : (lo + (m : Int) - lo).toNat = m := by omega
  rw [h]

theorem outputIndices_append (l1 l2 : List Store) :
    outputIndices (l1 ++ l2) = outputIndices l1 ++ outputIndices l2 := by
  simp only [outputIndices, List.filterMap_append]

theorem outputIndices_map_x_in {α : Type} (l : List α) (f : α → Int) :
    outputIndices (l.map (fun a => Store.x_in (f a))) = l.map f := by
  induction l with
  | nil => rfl
  | cons a rest ih =>
    rw [List.map_cons, List.map_cons, ← ih]
    rfl

theorem outputIndices_map_s_out {α : Type} (l : List α) (f : α → Int) :
    outputIndices (l.map (fun a => Store.s_out (f a))) = [] := by
  induction l with
  | nil => rfl
  | cons a rest ih =>
    rw [List.map_cons, ← ih]
    rfl

/-- The loading phase stores nothing to `x_in`. -/
theorem loadingPhase_output (n_sections tx : Int) :
    outputIndices (loadingPhase n_sections tx) = [] := by
  unfold loadingPhase
  exact outputIndices_map_s_out _ _

/-- A work-item below the last section stores nothing to `x_in` in the
processing phase. -/
theorem processingPhase_output_inner (n_samples n_sections ty tx : Int)
    (htx : tx < n_sections - 1) :
    outputIndices (processingPhase n_samples n_sections ty tx) = [] := by
  unfold processingPhase
  simp only [if_pos htx]
  exact outputIndices_map_s_out _ _

/-- A work-item below the last section stores nothing to `x_in` in the
unloading phase. -/
theorem unloadingPhase_output_inner (n_samples n_sections ty tx : Int)
    (htx : tx < n_sections - 1) :
    outputIndices (unloadingPhase n_samples n_sections ty tx) = [] := by
  unfold unloadingPhase
  simp only [if_pos htx]
  generalize forRange 0 n_sections = l
  induction l with
  | nil => rfl
  | cons a rest ih =>
    rw [List.flatMap_cons, outputIndices_append, ih]
    split_ifs <;> rfl

/-- The last section's work-item, `tx = n_sections - 1`, in the processing
phase: it stores to sample `k` of its signal in iteration `n = load_size + k`. -/
theorem processingPhase_output_last (ty : Int) (L U : Nat) :
    outputIndices (processingPhase ((L : Int) + U) ((L : Int) + 1) ty L) =
      (List.range U).map (fun k : Nat => ty * ((L : Int) + U) + (k : Int)) := by
  unfold processingPhase
  have h1 : (L : Int) + 1 - 1 = L := by omega
  simp only [h1, lt_self_iff_false, if_false]
  rw [outputIndices_map_x_in, forRange_add, List.map_map]
  apply List.map_congr_left
  intro k _
  simp only [Function.comp]
  omega

/-- The last section's work-item in the unloading phase: it stores to sample
`unload_size + n` in the iterations `n = 0 .. n_sections - 2`, and to nothing in
the last iteration. -/
theorem unloadingPhase_output_last (ty : Int) (L U : Nat) :
    outputIndices (unloadingPhase ((L : Int) + U) ((L : Int) + 1) ty L) =
      (List.range L).map (fun n : Nat => ty * ((L : Int) + U) + ((n : Int) + U)) := by
  unfold unloadingPhase
  have h1 : (L : Int) + 1 - 1 = L := by omega
  have h2 : (L : Int) + U - L = U := by omega
  have h3 : forRange 0 ((L : Int) + 1) = (List.range (L + 1)).map (fun k : Nat => (k : Int)) := by
    have := forRange_add 0 (L + 1)
    simp only [Int.zero_add, Nat.cast_add, Nat.cast_one] at this
    exact this
  simp only [h1, h2, lt_self_iff_false, if_false, h3]
  rw [List.range_succ, List.map_append, List.flatMap_append, outputIndices_append]
  have hlast : outputIndices (List.flatMap (List.map (fun k : Nat => (k : Int)) [L])
      (fun n : Int => if (L : Int) > n then
        [Store.x_in (ty * ((L : Int) + U) + (n + U))] else [])) = [] := by
    simp [outputIndices]
  rw [hlast, List.append_nil]
  have hfirst : ∀ m : Nat, m ≤ L → outputIndices (List.flatMap (List.map (fun k : Nat => (k : Int)) (List.range m))
      (fun n : Int => if (L : Int) > n then
        [Store.x_in (ty * ((L : Int) + U) + (n + U))] else [])) =
      (List.range m).map (fun n : Nat => ty * ((L : Int) + U) + ((n : Int) + U)) := by
    intro m hm
    induction m with
    | zero => rfl
    | succ m ih =>
      rw [List.range_succ, List.map_append, List.flatMap_append, outputIndices_append,
        ih (by omega), List.map_append]
      congr 1
      have hlt : (L : Int) > (m : Int) := by omega
      simp [outputIndices, hlt]
  exact hfirst L (le_refl L)

/-- The `x_in` stores of the last section's work-item over the whole kernel:
the samples of its signal, each once, in increasing order. -/
theorem kernelStores_output_last (n_signals ty : Int) (hty : ty < n_signals) (L U : Nat) :
    outputIndices (kernelStores n_signals ((L : Int) + U) ((L : Int) + 1) ty L) =
      (List.range (U + L)).map (fun k : Nat => ty * ((L : Int) + U) + (k : Int)) := by
  unfold kernelStores
  rw [if_pos hty]
  have hcons : ∀ (i : Int) (l : List Store),
      outputIndices (Store.s_out i :: l) = outputIndices l := fun _ _ => rfl
  rw [hcons, outputIndices_append, outputIndices_append, loadingPhase_output,
    processingPhase_output_last, unloadingPhase_output_last, List.nil_append, List.range_add,
    List.map_append, List.map_map]
  congr 1
  apply List.map_congr_left
  intro k _
  simp only [Function.comp, Nat.cast_add]
  omega

/-- The `x_in` stores of a work-item below the last section: none. -/
theorem kernelStores_output_inner (n_signals n_samples n_sections ty tx : Int)
    (htx : tx < n_sections - 1) :
    outputIndices (kernelStores n_signals n_samples n_sections ty tx) = [] := by
  unfold kernelStores
  have hcons : ∀ (i : Int) (l : List Store),
      outputIndices (Store.s_out i :: l) = outputIndices l := fun _ _ => rfl
  rw [hcons]
  split_ifs
  · rw [outputIndices_append, outputIndices_append, loadingPhase_output,
      processingPhase_output_inner _ _ _ _ htx, unloadingPhase_output_inner _ _ _ _ htx]
    rfl
  · rfl

/-! ## The claim C24 -/

/-- Claim C24. In the sosfil kernel, when the number of work-items per signal
(`THREADS = 32`) equals `n_sections` and `n_samples >= n_sections`, the last
section's work-item (`tx = n_sections - 1`) is the only one that stores to the
output, and over the processing and unloading phases it stores to every sample
index `0 .. n_samples - 1` of its signal exactly once: to `n - load_size` for
`n = load_size .. n_samples - 1` and to `n + unload_size` for
`n = 0 .. n_sections - 2`, all inside the signal's `n_samples` slots. -/
theorem sosfil_output_written_once (n_signals n_samples n_sections ty : Int)
    (hthreads : n_sections = THREADS) (hsamples : n_samples ≥ n_sections)
    (hty : ty < n_signals) :
    MAX_THREADS ≥ n_sections ∧
    (∀ tx : Int, 0 ≤ tx → tx < THREADS → tx ≠ n_sections - 1 →
      outputIndices (kernelStores n_signals n_samples n_sections ty tx) = []) ∧
    outputIndices (loadingPhase n_sections (n_sections - 1)) = [] ∧
    outputIndices (processingPhase n_samples n_sections ty (n_sections - 1)) =
      (forRange (n_sections - 1) n_samples).map
        (fun n => ty * n_samples + (n - (n_sections - 1))) ∧
    outputIndices (unloadingPhase n_samples n_sections ty (n_sections - 1)) =
      (forRange 0 (n_sections - 1)).map
        (fun n => ty * n_samples + (n + (n_samples - (n_sections - 1)))) ∧
    outputIndices (kernelStores n_signals n_samples n_sections ty (n_sections - 1)) =
      (forRange 0 n_samples).map (fun k => ty * n_samples + k) ∧
    (outputIndices (kernelStores n_signals n_samples n_sections ty (n_sections - 1))).Nodup ∧
    (∀ idx ∈ outputIndices (kernelStores n_signals n_samples n_sections ty (n_sections - 1)),
      ty * n_samples ≤ idx ∧ idx < ty * n_samples + n_samples) := by
  obtain ⟨U, hU⟩ : ∃ U : Nat, n_samples = ((31 : Nat) : Int) + (U : Int) :=
    ⟨(n_samples - 31).toNat, by rw [hthreads] at hsamples; simp only [THREADS] at hsamples; omega⟩
  have hsec : n_sections = ((31 : Nat) : Int) + 1 := by rw [hthreads]; rfl
  have hlast : n_sections - 1 = ((31 : Nat) : Int) := by rw [hsec]; omega
  have hrange0 : ∀ m : Nat, forRange 0 (m : Int) = (List.range m).map (fun k : Nat => (k : Int)) := by
    intro m
    have := forRange_add 0 m
    simp only [Int.zero_add] at this
    exact this
  have hall : outputIndices (kernelStores n_signals n_samples n_sections ty (n_sections - 1)) =
      (forRange 0 n_samples).map (fun k => ty * n_samples + k) := by
    rw [hlast, hsec, hU, kernelStores_output_last n_signals ty hty 31 U]
    have h : ((31 : Nat) : Int) + (U : Int) = ((U + 31 : Nat) : Int) := by omega
    rw [h, hrange0, List.map_map]
    rfl
  refine ⟨?_, ?_, loadingPhase_output _ _, ?_, ?_, hall, ?_, ?_⟩
  · rw [hthreads]; decide
  · intro tx _ h1 h2
    apply kernelStores_output_inner
    rw [hthreads] at h2 ⊢
    simp only [THREADS] at h1 h2 ⊢
    omega
  · rw [hlast, hsec, hU, processingPhase_output_last ty 31 U, forRange_add, List.map_map]
    apply List.map_congr_left
    intro k _
    simp only [Function.comp]
    omega
  · rw [hlast, hsec, hU, unloadingPhase_output_last ty 31 U, hrange0, List.map_map]
    apply List.map_congr_left
    intro k _
    simp only [Function.comp]
    omega
  · rw [hall]
    have hnd : (forRange 0 n_samples).Nodup := by
      unfold forRange
      exact (List.nodup_range _).map (fun a b h => Int.ofNat_inj.mp (add_left_cancel h))
    exact hnd.map (fun a b h => add_left_cancel h)
  · intro idx hidx
    rw [hall, List.mem_map] at hidx
    obtain ⟨k, hk, rfl⟩ := hidx
    unfold forRange at hk
    rw [List.mem_map] at hk
    obtain ⟨m, hm, rfl⟩ := hk
    rw [List.mem_range] at hm
    omega

/-- Witness for claim C24: the debug configuration of `main`, 2 signals of
`THREADS + 1 = 33` samples and 32 sections; the last section's work-item of
signal 1 stores to the indices 33 .. 65, each once. -/
theorem sosfil_output_written_once_witness :
    ((32 : Int) = THREADS ∧ (33 : Int) ≥ 32 ∧ (1 : Int) < 2) ∧
    outputIndices (kernelStores 2 33 32 1 (32 - 1)) =
      (forRange 0 33).map (fun k => 1 * 33 + k) ∧
    (outputIndices (kernelStores 2 33 32 1 (32 - 1))).Nodup :=
  ⟨⟨by decide, by decide, by decide⟩,
   (sosfil_output_written_once 2 33 32 1 (by decide) (by decide) (by decide)).2.2.2.2.2.1,
   (sosfil_output_written_once 2 33 32 1 (by decide) (by decide) (by decide)).2.2.2.2.2.2.1⟩

end Sosfil
